import Mathlib

/-!
Verification of the codefuse LSP proxy message plane (src/src/dispatcher.rs,
src/src/tasks.rs, src/src/handlers.rs) against its specification.

The embedding models `serde_json::Value` restricted to its integer-number
fragment (`serde_json` also carries IEEE doubles; no verified claim touches
float payloads), JSON text as `List Char` of Unicode scalar values with
`Content-Length` byte counts computed from each character's UTF-8 size
(`Char.utf8Size`), and the dispatcher as a pure function from a pending-request
table and a decoded message to an updated table plus an ordered trace of
primitive effects (channel sends, table inserts/removes, handler errors).
-/

set_option maxRecDepth 4000

namespace Codefuse

/-- A JSON value in the shape of `serde_json::Value`, with objects as ordered
association lists (a parsed value has its members sorted and deduplicated, the
way `serde_json`'s default `BTreeMap` object representation keeps them) and
numbers restricted to the integer fragment. -/
inductive Json where
  | null
  | bool (b : Bool)
  | num (n : Int)
  | str (s : String)
  | arr (items : List Json)
  | obj (fields : List (String × Json))
deriving Inhabited

namespace Json

/-- Membership lookup of `serde_json::Value::get` with a string key: defined on
objects only, first matching member (on the sorted-unique maps the dispatcher
actually receives this is plain map lookup). -/
def get (v : Json) (k : String) : Option Json :=
  match v with
  | obj fields => lookupField fields k
  | _ => none
where
  lookupField : List (String × Json) → String → Option Json
    | [], _ => none
    | (k', v') :: t, k => if k' = k then some v' else lookupField t k

/-- The test `serde_json::Value::as_u64` performs: a number that is a
non-negative integer fitting in 64 bits (the bound is the literal 2^64,
spelled out so that concrete dispatcher runs reduce inside the kernel). -/
def asU64 (v : Json) : Option Nat :=
  match v with
  | num n => if 0 ≤ n ∧ n < 18446744073709551616 then some n.toNat else none
  | _ => none

/-- The test `serde_json::Value::as_str` performs. -/
def asStr (v : Json) : Option String :=
  match v with
  | str s => some s
  | _ => none

end Json

/-- Lower-case hexadecimal digit, as `serde_json` prints `\u00XX` escapes. -/
def toHexChar (n : Nat) : Char :=
  if n < 10 then Char.ofNat (48 + n) else Char.ofNat (97 + (n - 10))

/-- The escape `serde_json`'s compact serializer applies to one character
inside a string literal: two-character short escapes for quote, backslash and
the five named control characters, a `\u00XX` escape for the remaining control
characters, and everything else verbatim. -/
def escapeChar (ch : Char) : List Char :=
  match ch with
  | '"' => ['\\', '"']
  | '\x08' => ['\\', 'b']
  | '\\' => ['\\', '\\']
  | '\t' => ['\\', 't']
  | '\n' => ['\\', 'n']
  | '\x0c' => ['\\', 'f']
  | '\r' => ['\\', 'r']
  | c =>
    if c.toNat < 0x20 then
      ['\\', 'u', '0', '0', toHexChar (c.toNat / 16), toHexChar (c.toNat % 16)]
    else [c]

/-- A serialized JSON string literal, quotes included. -/
def serStringLit (s : String) : List Char :=
  '"' :: (s.toList.flatMap escapeChar ++ ['"'])

/-- Worker for `natChars`, structurally recursive on a fuel argument so that
concrete frames evaluate inside the kernel; any fuel above the input suffices
(`natCharsGo_fuel`). -/
def natCharsGo : Nat → Nat → List Char → List Char
  | 0, n, acc => Char.ofNat (48 + n % 10) :: acc
  | fuel + 1, n, acc =>
    if n < 10 then Char.ofNat (48 + n % 10) :: acc
    else natCharsGo fuel (n / 10) (Char.ofNat (48 + n % 10) :: acc)

/-- Decimal digit characters of a natural number, most significant first,
prepended to the accumulator. -/
def natChars (n : Nat) (acc : List Char) : List Char :=
  natCharsGo n n acc

/-- Decimal characters of an integer: optional minus sign then digits, as
`serde_json` prints integer `Number`s. -/
def intChars (i : Int) : List Char :=
  (if i < 0 then ['-'] else []) ++ natChars i.natAbs []

mutual
/-- Compact serialization of a JSON value, modelling `serde_json::to_string`
(no inter-token whitespace, members in the order the object carries them). -/
def Json.ser : Json → List Char
  | .bool false => ['f', 'a', 'l', 's', 'e']
  | .bool true => ['t', 'r', 'u', 'e']
  | .null => ['n', 'u', 'l', 'l']
  | .num n => intChars n
  | .str s => serStringLit s
  | .arr items => '[' :: (serItems items ++ [']'])
  | .obj fields => '{' :: (serFields fields ++ ['}'])
/-- Comma-separated serialized array elements. -/
def serItems : List Json → List Char
  | [] => []
  | v :: t => v.ser ++ serItemsTail t
/-- Tail of a serialized element list: a comma before every further element. -/
def serItemsTail : List Json → List Char
  | [] => []
  | v :: t => ',' :: (v.ser ++ serItemsTail t)
/-- Comma-separated serialized object members. -/
def serFields : List (String × Json) → List Char
  | [] => []
  | (k, v) :: t => serStringLit k ++ ':' :: (v.ser ++ serFieldsTail t)
/-- Tail of a serialized member list: a comma before every further member. -/
def serFieldsTail : List (String × Json) → List Char
  | [] => []
  | (k, v) :: t => ',' :: (serStringLit k ++ ':' :: (v.ser ++ serFieldsTail t))
end

/-- Byte length of a character sequence under UTF-8, the count Rust's
`String::len` reports on the serialized body. -/
def byteLen (cs : List Char) : Nat :=
  (cs.map Char.utf8Size).sum

/-- The framed message `Dispatcher::format_lsp_message` builds
(src/src/dispatcher.rs lines 272-277): a `Content-Length` header carrying the
byte length of the serialized body, a blank line, then the body. -/
def format_lsp_message (v : Json) : List Char :=
  let body := v.ser
  ("Content-Length: ".toList ++ natChars (byteLen body) []) ++
    ('\r' :: '\n' :: '\r' :: '\n' :: body)

/-! ## Object normalization

`serde_json`'s default `Value` object representation is a `BTreeMap`: parsing
an object inserts each member in encounter order into a map ordered by the
byte-lexicographic key order (which coincides with `String`'s character order,
UTF-8 being order-preserving), so a parsed object has sorted keys and a later
duplicate key overwrites an earlier one. -/

/-- Strict lexicographic order on character lists by code point, the key order
of `BTreeMap<String, _>` (UTF-8 byte order coincides with code-point order). -/
def charListLt : List Char → List Char → Bool
  | [], [] => false
  | [], _ :: _ => true
  | _ :: _, [] => false
  | a :: as, b :: bs =>
    if a.toNat < b.toNat then true
    else if b.toNat < a.toNat then false
    else charListLt as bs

/-- The `BTreeMap` key order on `String`. -/
def strLt (a b : String) : Bool := charListLt a.data b.data

/-- Insertion into a sorted-unique association list, the effect of
`BTreeMap::insert`: replaces the value at an existing key, otherwise places the
member at its ordered position. -/
def insertSorted (k : String) (v : Json) : List (String × Json) → List (String × Json)
  | [] => [(k, v)]
  | (k', v') :: t =>
    if strLt k k' then (k, v) :: (k', v') :: t
    else if k = k' then (k, v) :: t
    else (k', v') :: insertSorted k v t

/-- Builds the object map from parsed members in encounter order, the way
`serde_json`'s `Value` visitor folds `next_entry` results into the map. -/
def buildObj (l : List (String × Json)) : List (String × Json) :=
  l.foldl (fun m kv => insertSorted kv.1 kv.2 m) []

mutual
/-- The value `serde_json` would hand back after a serialize-parse cycle:
object members sorted and deduplicated at every level, everything else
untouched. Two values are JSON-equal iff they normalize identically. -/
def Json.normalize : Json → Json
  | .null => .null
  | .bool b => .bool b
  | .num n => .num n
  | .str s => .str s
  | .arr items => .arr (normItems items)
  | .obj fields => .obj (buildObj (normFields fields))
/-- Normalizes every element of an array. -/
def normItems : List Json → List Json
  | [] => []
  | v :: t => v.normalize :: normItems t
/-- Normalizes the value of every member, keeping encounter order. -/
def normFields : List (String × Json) → List (String × Json)
  | [] => []
  | (k, v) :: t => (k, v.normalize) :: normFields t
end

/-- JSON equality in the sense of the spec: same key set and values, key order
and duplicates resolved the way a parse does. -/
def Json.equiv (a b : Json) : Prop := a.normalize = b.normalize

/-! ## Body parser

The model of `serde_json::from_slice` on the integer fragment: recursive
descent over the character list, fuel-powered for structural termination (any
fuel above the input length is enough). Restrictions against full `serde_json`,
none of which a verified claim depends on: numbers must be integers (no
fraction or exponent; `serde_json` would build a float), no inter-token
whitespace is skipped (the serializer under verification emits none), and a
`\uXXXX` escape must denote a scalar value (no surrogate-pair recombination).
Shared behavior: unknown escapes and raw control characters in strings are
rejected, leading zeros in numbers are rejected, input after the top-level
value is rejected. -/

/-- ASCII decimal digit test. -/
def isDigitChar (c : Char) : Bool := 48 ≤ c.toNat && c.toNat ≤ 57

/-- Rust and JSON whitespace on the ASCII range (the only characters header
lines can meaningfully carry). -/
def isWsChar (c : Char) : Bool :=
  c = ' ' || c = '\t' || c = '\n' || c = '\r' || c = '\x0b' || c = '\x0c'

/-- Longest digit run at the head of the input, and the remainder. -/
def takeDigits : List Char → List Char × List Char
  | [] => ([], [])
  | c :: t =>
    if isDigitChar c then
      let (ds, r) := takeDigits t
      (c :: ds, r)
    else ([], c :: t)

/-- Numeric value of a digit run. -/
def digitsVal (ds : List Char) : Nat :=
  ds.foldl (fun acc c => acc * 10 + (c.toNat - 48)) 0

/-- Value of a hexadecimal digit character, either case. -/
def hexDigitVal (c : Char) : Option Nat :=
  if 48 ≤ c.toNat ∧ c.toNat ≤ 57 then some (c.toNat - 48)
  else if 97 ≤ c.toNat ∧ c.toNat ≤ 102 then some (c.toNat - 87)
  else if 65 ≤ c.toNat ∧ c.toNat ≤ 70 then some (c.toNat - 55)
  else none

/-- Strips an expected prefix, returning the remainder on a match. -/
def stripPfx : List Char → List Char → Option (List Char)
  | [], cs => some cs
  | _ :: _, [] => none
  | p :: pt, c :: ct => if p = c then stripPfx pt ct else none

/-- The single-character short escapes JSON permits after a backslash. -/
def shortEscape : Char → Option Char
  | '"' => some '"'
  | '\\' => some '\\'
  | '/' => some '/'
  | 'b' => some '\x08'
  | 'f' => some '\x0c'
  | 'n' => some '\n'
  | 'r' => some '\r'
  | 't' => some '\t'
  | _ => none

/-- Parses the body of a string literal after the opening quote, returning the
decoded characters and the input after the closing quote. -/
def parseStrBody : List Char → Option (List Char × List Char)
  | [] => none
  | '"' :: r => some ([], r)
  | '\\' :: 'u' :: a :: b :: c :: d :: r => do
    let va ← hexDigitVal a
    let vb ← hexDigitVal b
    let vc ← hexDigitVal c
    let vd ← hexDigitVal d
    let n := ((va * 16 + vb) * 16 + vc) * 16 + vd
    if 0xd800 ≤ n ∧ n < 0xe000 then none
    else do
      let (cs, rest) ← parseStrBody r
      pure (Char.ofNat n :: cs, rest)
  | '\\' :: e :: r => do
    let ch ← shortEscape e
    let (cs, rest) ← parseStrBody r
    pure (ch :: cs, rest)
  | c :: r =>
    if c.toNat < 0x20 then none
    else do
      let (cs, rest) ← parseStrBody r
      pure (c :: cs, rest)

/-- Splits a leading minus sign off a number literal. -/
def splitSign : List Char → Bool × List Char
  | '-' :: r => (true, r)
  | r => (false, r)

/-- Whether the remainder would extend the literal into a float (fraction or
exponent part), which the integer-fragment model rejects. -/
def numCont : List Char → Bool
  | '.' :: _ => true
  | 'e' :: _ => true
  | 'E' :: _ => true
  | _ => false

/-- Parses a JSON integer (optional minus sign, digit run without leading
zeros, not followed by a fraction or exponent part). -/
def parseNum (cs : List Char) : Option (Int × List Char) :=
  let (negSign, cs1) := splitSign cs
  let (ds, rest) := takeDigits cs1
  if ds = [] then none
  else if ds.length > 1 ∧ ds.headI = '0' then none
  else if numCont rest then none
  else
    let v : Int := (digitsVal ds : Int)
    some (if negSign then -v else v, rest)

mutual
/-- Parses one JSON value at the head of the input, dispatching on its first
character the way `serde_json`'s `parse_value` peeks one byte. -/
def parseVal : Nat → List Char → Option (Json × List Char)
  | 0, _ => none
  | fuel + 1, cs =>
    match cs with
    | [] => none
    | c :: r =>
      if c = 'n' then (stripPfx ['u', 'l', 'l'] r).map fun r2 => (.null, r2)
      else if c = 't' then (stripPfx ['r', 'u', 'e'] r).map fun r2 => (.bool true, r2)
      else if c = 'f' then (stripPfx ['a', 'l', 's', 'e'] r).map fun r2 => (.bool false, r2)
      else if c = '"' then (parseStrBody r).map fun p => (.str (String.mk p.1), p.2)
      else if c = '[' then
        match r with
        | ']' :: r2 => some (.arr [], r2)
        | _ => (parseItems fuel r).map fun p => (.arr p.1, p.2)
      else if c = '{' then
        match r with
        | '}' :: r2 => some (.obj [], r2)
        | _ => (parseMembers fuel r).map fun p => (.obj (buildObj p.1), p.2)
      else if c = '-' || isDigitChar c then
        (parseNum (c :: r)).map fun p => (.num p.1, p.2)
      else none
/-- Parses one or more comma-separated array elements up to the closing
bracket. -/
def parseItems : Nat → List Char → Option (List Json × List Char)
  | 0, _ => none
  | fuel + 1, cs => do
    let (v, r) ← parseVal fuel cs
    match r with
    | ',' :: r' => do
      let (vs, rest) ← parseItems fuel r'
      pure (v :: vs, rest)
    | ']' :: r' => pure ([v], r')
    | _ => none
/-- Parses one or more comma-separated object members up to the closing
brace. -/
def parseMembers : Nat → List Char → Option (List (String × Json) × List Char)
  | 0, _ => none
  | fuel + 1, cs =>
    match cs with
    | '"' :: r => do
      let (kcs, r1) ← parseStrBody r
      match r1 with
      | ':' :: r2 => do
        let (v, r3) ← parseVal fuel r2
        match r3 with
        | ',' :: r4 => do
          let (ms, rest) ← parseMembers fuel r4
          pure ((String.mk kcs, v) :: ms, rest)
        | '}' :: r4 => pure ([(String.mk kcs, v)], r4)
        | _ => none
      | _ => none
    | _ => none
end

/-- One-step unfolding of `parseItems` at successor fuel (definitional). -/
theorem parseItems_step (f : Nat) (cs : List Char) :
    parseItems (f + 1) cs
      = (parseVal f cs).bind fun p =>
          match p.2 with
          | ',' :: r2 => (parseItems f r2).bind fun q => some (p.1 :: q.1, q.2)
          | ']' :: r2 => some ([p.1], r2)
          | _ => none := rfl

/-- One-step unfolding of `parseMembers` at successor fuel on a quote-headed
input (definitional). -/
theorem parseMembers_step (f : Nat) (r : List Char) :
    parseMembers (f + 1) ('"' :: r)
      = (parseStrBody r).bind fun pk =>
          match pk.2 with
          | ':' :: r2 =>
            (parseVal f r2).bind fun pv =>
              match pv.2 with
              | ',' :: r4 =>
                (parseMembers f r4).bind fun q =>
                  some ((String.mk pk.1, pv.1) :: q.1, q.2)
              | '}' :: r4 => some ([(String.mk pk.1, pv.1)], r4)
              | _ => none
          | _ => none := rfl

/-- The model of `serde_json::from_slice` on a frame body: exactly one JSON
value spanning the whole input. -/
def parseJson (cs : List Char) : Option Json :=
  match parseVal (cs.length + 1) cs with
  | some (v, []) => some v
  | _ => none

/-! ## Frame reading

The reader-pump loop of `receive_data_backend` / `receive_data_frontend`
(src/src/tasks.rs lines 65-111 and 168-213; the two loops are textually
identical): read header lines until a blank line, remembering the last
`Content-Length` value and failing if one does not parse; without a
`Content-Length` skip the block and continue; otherwise read that many body
bytes and parse them as JSON. -/

/-- How a frame read fails, each kind terminating the pump (matching what the
`?` propagation in the reader loops does). `badHeader` is the
`parse::<usize>` context error on a malformed `Content-Length` value;
`badRead` covers `read_exact` hitting end of input (and the model's merging of
a byte count that splits a UTF-8 character, which the real code surfaces as a
JSON error one step later); `badJson` is a body `from_slice` failure; `fuel`
stands in for the real loop never terminating (it spins at end of input). -/
inductive CodecError where
  | badHeader
  | badRead
  | badJson
  | fuel
deriving DecidableEq

/-- One `read_line` call: everything up to and including the first newline, or
the whole rest of the input at end of file. -/
def readLine : List Char → List Char × List Char
  | [] => ([], [])
  | c :: r =>
    if c = '\n' then ([c], r)
    else
      let (l, rest) := readLine r
      (c :: l, rest)

/-- Both-ends whitespace trim, as `str::trim` behaves on header lines. -/
def trimChars (cs : List Char) : List Char :=
  ((cs.dropWhile isWsChar).reverse.dropWhile isWsChar).reverse

/-- Drops the optional leading plus sign `usize::from_str` accepts. -/
def stripPlus : List Char → List Char
  | '+' :: r => r
  | r => r

/-- The test `str::parse::<usize>` applies: an optional plus sign, at least one
digit, and a value below 2^64 (the 64-bit `usize` range). -/
def parseUsize (cs : List Char) : Option Nat :=
  let ds := stripPlus cs
  if ds ≠ [] ∧ ds.all isDigitChar then
    if digitsVal ds < 2 ^ 64 then some (digitsVal ds) else none
  else none

/-- The header-line loop: reads lines until one trims to empty, keeping the
last successfully located `Content-Length` value and propagating a parse
failure of its value. -/
def readHeaderGo : Nat → Option Nat → List Char → Except CodecError (Option Nat × List Char)
  | 0, _, _ => .error .fuel
  | fuel + 1, acc, s =>
    let (line, rest) := readLine s
    let t := trimChars line
    if t = [] then .ok (acc, rest)
    else
      match stripPfx "Content-Length:".toList t with
      | some v =>
        match parseUsize (trimChars v) with
        | some n => readHeaderGo fuel (some n) rest
        | none => .error .badHeader
      | none => readHeaderGo fuel acc rest

/-- Takes a prefix worth exactly `n` UTF-8 bytes; `none` when the input ends
early or `n` splits a character (structural on the character list, so it
consumes at least one character per step thanks to a character's positive
UTF-8 size). -/
def takeBytesFrom : List Char → Nat → Option (List Char × List Char)
  | cs, 0 => some ([], cs)
  | [], _ + 1 => none
  | c :: cs, n + 1 =>
    if c.utf8Size ≤ n + 1 then
      (takeBytesFrom cs (n + 1 - c.utf8Size)).map fun p => (c :: p.1, p.2)
    else none

/-- Takes a prefix worth exactly `n` UTF-8 bytes from a stream, the model of
`read_exact` into an `n`-byte buffer followed by UTF-8 decoding. -/
def takeBytes (n : Nat) (cs : List Char) : Option (List Char × List Char) :=
  takeBytesFrom cs n

/-- The outer reader loop: one completed header block per iteration, skipping
blocks with no `Content-Length` (the `continue` branch), then the body read
and JSON parse. -/
def readFrameGo : Nat → List Char → Except CodecError (Json × List Char)
  | 0, _ => .error .fuel
  | fuel + 1, s =>
    match readHeaderGo (s.length + 1) none s with
    | .error e => .error e
    | .ok (none, rest) => readFrameGo fuel rest
    | .ok (some n, rest) =>
      match takeBytes n rest with
      | none => .error .badRead
      | some (body, rest') =>
        match parseJson body with
        | some v => .ok (v, rest')
        | none => .error .badJson

/-- Reads one frame from the head of a byte stream, the per-message behavior
of the reader pumps. -/
def readFrame (s : List Char) : Except CodecError (Json × List Char) :=
  readFrameGo (s.length + 1) s

example : readFrame "Content-Length: 4\r\n\r\nnull".toList = .ok (Json.null, []) := rfl

example : Json.ser (Json.arr [Json.null, Json.bool true]) = "[null,true]".toList := by
  decide

example : Json.ser (Json.obj [("a", Json.num 5)]) = "\x7b\"a\":5\x7d".toList := by
  decide

example : format_lsp_message Json.null = "Content-Length: 4\r\n\r\nnull".toList := by
  decide

end Codefuse

namespace Codefuse

/-! ## Dispatcher state and effects

`Dispatcher` (src/src/dispatcher.rs) holds two handler registries, the two
writer-queue senders and the pending-request table `DashMap<u64, String>`. The
embedding threads the table explicitly and records every externally visible
effect of one dispatcher call, in program order, as an event trace: channel
sends carry the full framed message, table operations carry the key, and a
handler returning `Err` is a `handlerFailed` event (the spawning pump only
logs it). -/

/-- The pending-request table: association list keyed by the `u64` the code
extracted via `as_u64` (`DashMap` iteration order never matters). -/
abbrev PendingTable := List (Nat × String)

/-- Models `DashMap::insert`: overwrites the entry at an existing key. -/
def tableInsert (id : Nat) (m : String) : PendingTable → PendingTable
  | [] => [(id, m)]
  | (i, v) :: t => if i = id then (id, m) :: t else (i, v) :: tableInsert id m t

/-- Models `DashMap::remove`: the removed value, if any, and the table without
the key. -/
def tableRemove (id : Nat) : PendingTable → Option String × PendingTable
  | [] => (none, [])
  | (i, v) :: t =>
    if i = id then (some v, t)
    else
      let (r, t') := tableRemove id t
      (r, (i, v) :: t')

/-- Membership of a key in the pending table. -/
def tableHasKey (id : Nat) : PendingTable → Bool
  | [] => false
  | (i, _) :: t => i = id || tableHasKey id t

/-- One externally visible primitive effect of a dispatcher call. -/
inductive Event where
  | insertPending (id : Nat) (method : String)
  | removePending (id : Nat) (found : Option String)
  | sendBackend (msg : List Char)
  | sendFrontend (msg : List Char)
  | handlerFailed (reason : String)

/-- What one handler invocation did: the messages it enqueued on the sender it
was given (in order), and the error it returned, if any. -/
structure HandlerResult where
  sent : List (List Char)
  err : Option String

/-- A registered handler: the pure content of a `DispatcherFn`, which receives
the decoded message plus one writer-queue sender and may enqueue messages on
it. -/
abbrev Handler := Json → HandlerResult

/-- A handler registry (`handlers_from_frontend` / `handlers_from_backend`):
a map from method name to handler; the `HashMap` is modelled as an association
list with unique keys. -/
abbrev Registry := List (String × Handler)

/-- Registry lookup, `HashMap::get`. -/
def regLookup (reg : Registry) (m : String) : Option Handler :=
  match reg with
  | [] => none
  | (k, h) :: t => if k = m then some h else regLookup t m

/-- The events one handler invocation contributes to the trace: its enqueues
on its bound sender, then its error if it returned one (which the spawning
pump merely logs). -/
def handlerEvents (r : HandlerResult) (send : List Char → Event) : List Event :=
  r.sent.map send ++
    (match r.err with
     | some e => [.handlerFailed e]
     | none => [])

/-- The recording step of `Dispatcher::handle_from_frontend`
(src/src/dispatcher.rs lines 142-148): when both `id` and `method` are
present and extract as `u64` and `&str`, insert the pair into the pending
table; any other shape records nothing. -/
def recordPending (pending : PendingTable) (rpc : Json) :
    PendingTable × List Event :=
  match rpc.get "id", rpc.get "method" with
  | some idVal, some methodVal =>
    match idVal.asU64, methodVal.asStr with
    | some id, some m => (tableInsert id m pending, [.insertPending id m])
    | _, _ => (pending, [])
  | _, _ => (pending, [])

/-- Models `Dispatcher::handle_from_frontend` (src/src/dispatcher.rs lines
142-158): record id and method when both extract, then either invoke the
registered handler for the method (handing it the backend sender) or forward
the message verbatim to the backend queue. -/
def handle_from_frontend (reg : Registry) (pending : PendingTable) (rpc : Json) :
    PendingTable × List Event :=
  let recorded := recordPending pending rpc
  let m : String := ((rpc.get "method").bind Json.asStr).getD ""
  match regLookup reg m with
  | some h => (recorded.1, recorded.2 ++ handlerEvents (h rpc) .sendBackend)
  | none => (recorded.1, recorded.2 ++ [.sendBackend (format_lsp_message rpc)])

/-- The first step of `Dispatcher::handle_from_backend`
(src/src/dispatcher.rs lines 174-185): with an `id` present the governing
method is looked up by removing the `u64` key from the pending table (a
non-`u64` id yields no method); with no `id` the message's own `method`
governs. Yields the method, the table after the step and the step's events. -/
def backendGoverning (pending : PendingTable) (rpc : Json) :
    Option String × PendingTable × List Event :=
  match rpc.get "id" with
  | some idVal =>
    match idVal.asU64 with
    | some id =>
      let (found, t') := tableRemove id pending
      (found, t', [.removePending id found])
    | none => (none, pending, [])
  | none => ((rpc.get "method").bind Json.asStr, pending, [])

/-- Models `Dispatcher::handle_from_backend` (src/src/dispatcher.rs lines
172-196): determine the governing method (removing the pending entry when an
id is present); a known method with a registered handler is diverted to that
handler (with the frontend sender) and the call returns; everything else is
forwarded verbatim to the frontend queue. -/
def handle_from_backend (reg : Registry) (pending : PendingTable) (rpc : Json) :
    PendingTable × List Event :=
  let step := backendGoverning pending rpc
  let forward : PendingTable × List Event :=
    (step.2.1, step.2.2 ++ [.sendFrontend (format_lsp_message rpc)])
  match step.1 with
  | some m =>
    match regLookup reg m with
    | some h => (step.2.1, step.2.2 ++ handlerEvents (h rpc) .sendFrontend)
    | none => forward
  | none => forward

/-! ## The built-in initialize handler

`handle_initialize` (src/src/handlers.rs lines 22-51) deserializes the
response's `result` into tower-lsp's typed `InitializeResult`, overwrites its
`server_info`, serializes it back and re-frames the message. The typed
round-trip is what makes the rewrite lossy: serde ignores unknown fields on
the way in, so any member of `result` outside the `InitializeResult` schema is
gone on the way out.

The nested `ServerCapabilities` round-trip is kept opaque: the model accepts
any JSON object as the `capabilities` member and carries it through verbatim,
while the real typed parse also validates inside it (an ill-typed capability
member fails the whole deserialization) and the re-serialization drops
unknown and absent capability members. The model's handler therefore succeeds
and emits a frame on a superset of the real inputs, with the capability
object unchanged where the code may transform it. Every theorem below is
insensitive to this: failure branches used are ones the real parse shares
(`result` absent or not an object), and statements about emitted frames never
inspect the value of the `capabilities` member, only the rest of the
message. -/

/-- tower-lsp's `ServerInfo`: a name and an optional version. -/
structure ServerInfo where
  name : String
  version : Option String

/-- tower-lsp's `InitializeResult`: the capabilities (kept opaque here, see
the section comment) and an optional `serverInfo` member. -/
structure InitializeResult where
  capabilities : Json
  server_info : Option ServerInfo

/-- Is the value a JSON object. -/
def Json.isObj : Json → Bool
  | .obj _ => true
  | _ => false

/-- Models `serde_json::from_value` at `ServerInfo`: an object with a required
string `name` and an optional string-or-null `version`; unknown members are
ignored. -/
def deserServerInfo (v : Json) : Except String ServerInfo :=
  match v with
  | .obj _ =>
    match (v.get "name").bind Json.asStr with
    | none => .error "invalid serverInfo.name"
    | some name =>
      match v.get "version" with
      | none => .ok ⟨name, none⟩
      | some .null => .ok ⟨name, none⟩
      | some (.str s) => .ok ⟨name, some s⟩
      | some _ => .error "invalid serverInfo.version"
  | _ => .error "invalid type for serverInfo"

/-- Models `serde_json::from_value` at `InitializeResult`: an object with a
required `capabilities` object and an optional `serverInfo`; members outside
the schema are ignored (dropped by the round-trip). The `capabilities` member
is kept opaque (see the section comment): the real parse also validates and
may reject inside it, so the model's success branch over-approximates the
real one, and no theorem relies on the stored capability value. -/
def deserInitializeResult (v : Json) : Except String InitializeResult :=
  match v with
  | .obj _ =>
    match v.get "capabilities" with
    | none => .error "missing field capabilities"
    | some caps =>
      if caps.isObj then
        match v.get "serverInfo" with
        | none => .ok ⟨caps, none⟩
        | some .null => .ok ⟨caps, none⟩
        | some sv =>
          match deserServerInfo sv with
          | .ok si => .ok ⟨caps, some si⟩
          | .error e => .error e
      else .error "invalid type for capabilities"
  | _ => .error "invalid type for InitializeResult"

/-- Models `serde_json::to_value` at `ServerInfo` (camelCase members, version
skipped when absent). -/
def serServerInfo (si : ServerInfo) : Json :=
  .obj
    (("name", .str si.name) ::
      (match si.version with
       | some v => [("version", .str v)]
       | none => []))

/-- Models `serde_json::to_value` at `InitializeResult`: a map with the
capabilities and, when present, the `serverInfo` member (the `BTreeMap` holds
the two keys in this order). The capabilities member is emitted as the
deserialization stored it — in the code it is the `to_value` of the parsed
`ServerCapabilities` struct, which may differ from the received object (see
the section comment); no theorem inspects that value. -/
def serInitializeResult (ir : InitializeResult) : Json :=
  .obj
    (("capabilities", ir.capabilities) ::
      (match ir.server_info with
       | some si => [("serverInfo", serServerInfo si)]
       | none => []))

/-- Models `Map::insert` on a message: replaces or adds the member when the
value is an object (the `as_object_mut` some-branch), otherwise leaves the
value untouched. -/
def objInsert (v : Json) (k : String) (x : Json) : Json :=
  match v with
  | .obj fields => .obj (insertSorted k x fields)
  | _ => v

/-- Models `handle_initialize` (src/src/handlers.rs lines 22-51): take
`result` (its absence is an error), deserialize it as an `InitializeResult`
(a failure propagates as the handler's error, enqueuing nothing), overwrite
`server_info` with name codefuse, version 0.1.0, write the re-serialized
struct back into the message and enqueue the re-framed message. -/
def handle_initialize (rpc : Json) : HandlerResult :=
  match rpc.get "result" with
  | none => ⟨[], some "Missing result field"⟩
  | some rawResult =>
    match deserInitializeResult rawResult with
    | .error e => ⟨[], some e⟩
    | .ok ir =>
      let edited := serInitializeResult { ir with server_info := some ⟨"codefuse", some "0.1.0"⟩ }
      let rawRpc := objInsert rpc "result" edited
      ⟨[format_lsp_message rawRpc], none⟩

/-- Modelled from the spec: `Dispatcher::register_from_backend`, the
registration method `setup_handlers` (src/src/handlers.rs line 97) calls, is
not among the sources under src/; per the spec's handler-registry contract
(sections 3 and 4.4.4: a map from method name to handler, at most one handler
per direction and method) it binds the handler to the method name in the
from-backend registry. -/
def register_from_backend (reg : Registry) (m : String) (h : Handler) : Registry :=
  (m, h) :: reg.filter (fun kv => kv.1 ≠ m)

/-- The from-backend registry `setup_handlers` (src/src/handlers.rs lines
67-99) builds: exactly the `initialize` rebranding handler. -/
def builtinBackendHandlers : Registry :=
  register_from_backend [] "initialize" handle_initialize

/-- The from-frontend registry after startup: `setup_handlers` registers
nothing in this direction. -/
def builtinFrontendHandlers : Registry := []

/-! ## Reader-pump permit discipline

`receive_data_backend` and `receive_data_frontend` (src/src/tasks.rs lines
100-110 and 203-212) run, per decoded message:
`let permit = semaphore.clone().acquire_owned().await?; let _ = permit;`
followed by `tokio::spawn` of the handler task. Binding the permit to `_`
drops it on the spot, so the permit is returned to the semaphore before the
handler task is spawned. The model tracks the semaphore's available permits
and the number of spawned-but-unfinished handler tasks through those three
steps. -/

/-- Available semaphore permits and in-flight spawned handler tasks. -/
structure PumpState where
  available : Nat
  inflight : Nat
deriving DecidableEq, Repr

/-- The `acquire_owned().await` step (the pump blocks until a permit is
available, so steps are taken from states with `available > 0`). -/
def acquirePermit (s : PumpState) : PumpState :=
  { s with available := s.available - 1 }

/-- The immediate drop of the permit that `let _ = permit;` performs: the
permit returns to the semaphore. -/
def dropPermit (s : PumpState) : PumpState :=
  { s with available := s.available + 1 }

/-- The `tokio::spawn` of the message's handler task. -/
def spawnHandlerTask (s : PumpState) : PumpState :=
  { s with inflight := s.inflight + 1 }

/-- One reader-pump loop iteration after the frame decode, exactly as the
code orders it: acquire, drop through the `_` binding, spawn. -/
def pumpIteration (s : PumpState) : PumpState :=
  spawnHandlerTask (dropPermit (acquirePermit s))

/-- A handler task finishing: it holds no permit (the pump already dropped
it), so nothing returns to the semaphore. -/
def completeHandlerTask (s : PumpState) : PumpState :=
  { s with inflight := s.inflight - 1 }

end Codefuse
namespace Codefuse

/-! ## Decimal digits: facts about `natChars` and its parses -/

theorem natCharsGo_fuel : ∀ (f1 : Nat), ∀ {n : Nat} (acc : List Char) (f2 : Nat),
    n ≤ f1 → n ≤ f2 → natCharsGo f1 n acc = natCharsGo f2 n acc := by
  intro f1
  induction f1 with
  | zero =>
    intro n acc f2 h1 _
    interval_cases n
    cases f2 with
    | zero => rfl
    | succ m => simp [natCharsGo]
  | succ f ih =>
    intro n acc f2 h1 h2
    by_cases hn : n < 10
    · cases f2 with
      | zero =>
        interval_cases n
        simp [natCharsGo]
      | succ m => simp [natCharsGo, hn]
    · have hf2 : ∃ m, f2 = m + 1 := ⟨f2 - 1, by omega⟩
      obtain ⟨m, rfl⟩ := hf2
      have hd1 : n / 10 ≤ f := by omega
      have hd2 : n / 10 ≤ m := by omega
      simp only [natCharsGo, if_neg hn]
      exact ih _ m hd1 hd2

/-- The defining recursion of `natChars`, freed from its fuel. -/
theorem natChars_eq (n : Nat) (acc : List Char) :
    natChars n acc =
      if n < 10 then Char.ofNat (48 + n % 10) :: acc
      else natChars (n / 10) (Char.ofNat (48 + n % 10) :: acc) := by
  by_cases hn : n < 10
  · cases n with
    | zero => simp [natChars, natCharsGo]
    | succ m => simp [natChars, natCharsGo, hn]
  · have hsucc : ∃ m, n = m + 1 := ⟨n - 1, by omega⟩
    obtain ⟨m, rfl⟩ := hsucc
    simp only [natChars, natCharsGo, if_neg hn]
    exact natCharsGo_fuel m _ _ (by omega) (by omega)

theorem natChars_append (n : Nat) : ∀ acc : List Char,
    natChars n acc = natChars n [] ++ acc := by
  induction n using Nat.strongRecOn with
  | _ n ih =>
    intro acc
    rw [natChars_eq, natChars_eq n []]
    by_cases hn : n < 10
    · simp [hn]
    · simp only [if_neg hn]
      rw [ih (n / 10) (by omega), ih (n / 10) (by omega) [_]]
      simp

/-- Last-digit-first unfolding of `natChars`. -/
theorem natChars_unfold (n : Nat) :
    natChars n [] =
      (if n < 10 then [] else natChars (n / 10) []) ++ [Char.ofNat (48 + n % 10)] := by
  rw [natChars_eq]
  by_cases hn : n < 10
  · simp [hn]
  · simp only [if_neg hn]
    exact natChars_append (n / 10) [_]

theorem natChars_ne_nil (n : Nat) : natChars n [] ≠ [] := by
  rw [natChars_unfold]
  simp

theorem digitChar_spec (k : Nat) (h : k < 10) :
    (Char.ofNat (48 + k)).toNat = 48 + k ∧ isDigitChar (Char.ofNat (48 + k)) = true := by
  interval_cases k <;> exact ⟨by decide, by decide⟩

theorem natChars_all_digits (n : Nat) : ∀ c ∈ natChars n [], isDigitChar c = true := by
  induction n using Nat.strongRecOn with
  | _ n ih =>
    rw [natChars_unfold]
    intro c hc
    rw [List.mem_append] at hc
    rcases hc with hc | hc
    · by_cases hn : n < 10
      · simp [hn] at hc
      · exact ih (n / 10) (by omega) c (by simpa [hn] using hc)
    · rw [List.mem_singleton] at hc
      subst hc
      exact (digitChar_spec (n % 10) (Nat.mod_lt _ (by omega))).2

theorem digitsVal_natChars (n : Nat) : digitsVal (natChars n []) = n := by
  induction n using Nat.strongRecOn with
  | _ n ih =>
    rw [natChars_unfold]
    by_cases hn : n < 10
    · simp only [if_pos hn, List.nil_append, digitsVal, List.foldl_cons, List.foldl_nil]
      rw [(digitChar_spec (n % 10) (Nat.mod_lt _ (by omega))).1]
      omega
    · simp only [if_neg hn, digitsVal, List.foldl_append, List.foldl_cons, List.foldl_nil]
      have := ih (n / 10) (by omega)
      rw [digitsVal] at this
      rw [this, (digitChar_spec (n % 10) (Nat.mod_lt _ (by omega))).1]
      omega

/-- The leading digit of a positive number is never the zero digit. -/
theorem natChars_head_ne_zero (n : Nat) (hn : 1 ≤ n) :
    (natChars n []).headI ≠ '0' := by
  induction n using Nat.strongRecOn with
  | _ n ih =>
    rw [natChars_eq]
    by_cases h10 : n < 10
    · simp only [if_pos h10, List.headI]
      intro hc
      have : (Char.ofNat (48 + n % 10)).toNat = '0'.toNat := by rw [hc]
      rw [(digitChar_spec (n % 10) (Nat.mod_lt _ (by omega))).1] at this
      have h0 : ('0' : Char).toNat = 48 := rfl
      rw [h0] at this
      omega
    · simp only [if_neg h10]
      rw [natChars_append]
      have hne := natChars_ne_nil (n / 10)
      have := ih (n / 10) (by omega) (by omega)
      cases h : natChars (n / 10) [] with
      | nil => exact absurd h hne
      | cons c t =>
        rw [h] at this
        simpa [h] using this

theorem natChars_length_le_one (n : Nat) (h10 : n < 10) :
    (natChars n []).length ≤ 1 := by
  rw [natChars_unfold, if_pos h10]
  simp

end Codefuse
namespace Codefuse

/-! ## Parsing back what the serializer printed: numbers -/

/-- A remainder that cannot extend a serialized number: empty or headed by a
character that is neither a digit nor a fraction or exponent marker. Every
context a serialized value is embedded in (a comma, closing bracket or brace,
or end of the body) satisfies this. -/
def numDelim : List Char → Bool
  | [] => true
  | c :: _ => !(isDigitChar c || c = '.' || c = 'e' || c = 'E')

theorem takeDigits_cons_not {t : List Char} {c : Char} (hc : isDigitChar c = false) :
    takeDigits (c :: t) = ([], c :: t) := by
  simp [takeDigits, hc]

theorem takeDigits_stop {cs : List Char} (hnd : numDelim cs = true) :
    takeDigits cs = ([], cs) := by
  cases cs with
  | nil => rfl
  | cons c t =>
    simp only [numDelim, Bool.not_eq_true', Bool.or_eq_false_iff] at hnd
    obtain ⟨⟨⟨hd, _⟩, _⟩, _⟩ := hnd
    exact takeDigits_cons_not hd

theorem takeDigits_all (ds rest : List Char)
    (hds : ∀ c ∈ ds, isDigitChar c = true)
    (hfix : takeDigits rest = ([], rest)) :
    takeDigits (ds ++ rest) = (ds, rest) := by
  induction ds with
  | nil => simpa using hfix
  | cons c t ih =>
    have hc : isDigitChar c = true := hds c (by simp)
    have ht := ih fun x hx => hds x (by simp [hx])
    simp [takeDigits, hc, ht]

theorem numDelim_head {c : Char} {t : List Char} (h : numDelim (c :: t) = true) :
    isDigitChar c = false ∧ c ≠ '.' ∧ c ≠ 'e' ∧ c ≠ 'E' := by
  simp only [numDelim, Bool.not_eq_true', Bool.or_eq_false_iff,
    decide_eq_false_iff_not] at h
  exact ⟨h.1.1.1, h.1.1.2, h.1.2, h.2⟩

theorem digit_facts {c : Char} (h : isDigitChar c = true) :
    c ≠ '-' ∧ c ≠ '+' ∧ c ≠ 'n' ∧ c ≠ 't' ∧ c ≠ 'f' ∧ c ≠ '"' ∧ c ≠ '[' ∧ c ≠ '{' := by
  simp only [isDigitChar, Bool.and_eq_true, decide_eq_true_eq] at h
  refine ⟨?_, ?_, ?_, ?_, ?_, ?_, ?_, ?_⟩ <;>
    (intro hc; subst hc; revert h; decide)

theorem splitSign_not_minus {c : Char} {t : List Char} (h : c ≠ '-') :
    splitSign (c :: t) = (false, c :: t) := by
  unfold splitSign
  split
  · rename_i r heq
    rw [List.cons.injEq] at heq
    exact absurd heq.1 h
  · rfl

theorem numCont_of_delim {cs : List Char} (h : numDelim cs = true) :
    numCont cs = false := by
  cases cs with
  | nil => rfl
  | cons c t =>
    obtain ⟨_, hdot, he, hE⟩ := numDelim_head h
    unfold numCont
    split
    · rename_i heq
      rw [List.cons.injEq] at heq
      exact absurd heq.1 hdot
    · rename_i heq
      rw [List.cons.injEq] at heq
      exact absurd heq.1 he
    · rename_i heq
      rw [List.cons.injEq] at heq
      exact absurd heq.1 hE
    · rfl

/-- The leading-zero test never fires on canonical digits. -/
theorem natChars_no_leading_zero (n : Nat) :
    ¬((natChars n []).length > 1 ∧ (natChars n []).headI = '0') := by
  rintro ⟨hlen, hhead⟩
  by_cases h10 : n < 10
  · have := natChars_length_le_one n h10
    omega
  · exact natChars_head_ne_zero n (by omega) hhead

/-- Parsing a serialized integer recovers it, given a remainder that cannot
extend the number. -/
theorem parseNum_intChars (n : Int) (rest : List Char) (hr : numDelim rest = true) :
    parseNum (intChars n ++ rest) = some (n, rest) := by
  have htail : takeDigits (natChars n.natAbs [] ++ rest) = (natChars n.natAbs [], rest) :=
    takeDigits_all _ _ (natChars_all_digits _) (takeDigits_stop hr)
  have hne : ¬(natChars n.natAbs [] = []) := natChars_ne_nil _
  have hlz := natChars_no_leading_zero n.natAbs
  have hval := digitsVal_natChars n.natAbs
  have hcont := numCont_of_delim hr
  by_cases hneg : n < 0
  · have habs : -((n.natAbs : Nat) : Int) = n := by omega
    have harg : intChars n ++ rest = '-' :: (natChars n.natAbs [] ++ rest) := by
      simp [intChars, hneg]
    have hsplit : splitSign ('-' :: (natChars n.natAbs [] ++ rest))
        = (true, natChars n.natAbs [] ++ rest) := rfl
    rw [harg]
    simp only [parseNum, hsplit, htail, hval, hcont]
    rw [if_neg hne, if_neg hlz, if_neg Bool.false_ne_true]
    simp only [if_true, habs]
  · have habs : ((n.natAbs : Nat) : Int) = n := by omega
    have hint : intChars n = natChars n.natAbs [] := by
      simp [intChars, hneg]
    obtain ⟨c0, t0, h0⟩ : ∃ c0 t0, natChars n.natAbs [] = c0 :: t0 := by
      cases h : natChars n.natAbs [] with
      | nil => exact absurd h hne
      | cons a b => exact ⟨a, b, rfl⟩
    have hc0 : isDigitChar c0 = true :=
      natChars_all_digits n.natAbs c0 (h0 ▸ List.mem_cons_self _ _)
    obtain ⟨hminus, _⟩ := digit_facts hc0
    have hsplit : splitSign (natChars n.natAbs [] ++ rest)
        = (false, natChars n.natAbs [] ++ rest) := by
      rw [h0]
      exact splitSign_not_minus hminus
    rw [hint]
    simp only [parseNum, hsplit, htail, hval, hcont]
    rw [if_neg hne, if_neg hlz, if_neg Bool.false_ne_true, if_neg Bool.false_ne_true, habs]

end Codefuse
namespace Codefuse

/-! ## Parsing back what the serializer printed: strings -/

theorem hexDigitVal_toHexChar (d : Nat) (h : d < 16) :
    hexDigitVal (toHexChar d) = some d := by
  interval_cases d <;> decide

/-- Decoding one escaped character undoes the escape. -/
theorem parseStrBody_escape (c : Char) (rest : List Char) :
    parseStrBody (escapeChar c ++ rest)
      = (parseStrBody rest).map fun p => (c :: p.1, p.2) := by
  unfold escapeChar
  split
  · cases h : parseStrBody rest <;> simp [parseStrBody, shortEscape, h]
  · cases h : parseStrBody rest <;> simp [parseStrBody, shortEscape, h]
  · cases h : parseStrBody rest <;> simp [parseStrBody, shortEscape, h]
  · cases h : parseStrBody rest <;> simp [parseStrBody, shortEscape, h]
  · cases h : parseStrBody rest <;> simp [parseStrBody, shortEscape, h]
  · cases h : parseStrBody rest <;> simp [parseStrBody, shortEscape, h]
  · cases h : parseStrBody rest <;> simp [parseStrBody, shortEscape, h]
  · rename_i cdup h1 h2 h3 h4 h5 h6 h7
    by_cases hlt : c.toNat < 0x20
    · have h16 : ∀ k : Nat, k % 16 < 16 := fun k => Nat.mod_lt _ (by omega)
      have hdiv : c.toNat / 16 < 16 := by omega
      have hrecomb : ((0 * 16 + 0) * 16 + c.toNat / 16) * 16 + c.toNat % 16 = c.toNat := by
        omega
      have hsur : ¬(0xd800 ≤ c.toNat ∧ c.toNat < 0xe000) := by omega
      simp only [if_pos hlt, List.cons_append, List.nil_append, parseStrBody,
        hexDigitVal_toHexChar _ hdiv, hexDigitVal_toHexChar _ (h16 c.toNat)]
      rw [show hexDigitVal '0' = some 0 from rfl]
      simp only [Option.bind_eq_bind, Option.some_bind, hrecomb]
      rw [if_neg hsur, Char.ofNat_toNat]
      cases h : parseStrBody rest <;> simp [h]
    · simp only [if_neg hlt, List.cons_append, List.nil_append]
      have hq : c ≠ '"' := h1
      have hb : c ≠ '\\' := h3
      rw [parseStrBody.eq_def]
      split
      · rename_i heq
        exact absurd heq (by simp)
      · rename_i heq
        rw [List.cons.injEq] at heq
        exact absurd heq.1 hq
      · rename_i heq
        rw [List.cons.injEq] at heq
        exact absurd heq.1 hb
      · rename_i heq
        rw [List.cons.injEq] at heq
        exact absurd heq.1 hb
      · rename_i c' r' heq
        rw [List.cons.injEq] at heq
        obtain ⟨hc', hr'⟩ := heq
        subst hc'
        subst hr'
        rw [if_neg hlt]
        cases h : parseStrBody rest <;> simp [h]
/-- Decoding a fully escaped character run stops at the closing quote and
recovers the original characters. -/
theorem parseStrBody_flatMap (cs : List Char) : ∀ rest : List Char,
    parseStrBody (cs.flatMap escapeChar ++ '"' :: rest) = some (cs, rest) := by
  induction cs with
  | nil => intro rest; simp [parseStrBody]
  | cons c t ih =>
    intro rest
    rw [List.flatMap_cons, List.append_assoc, parseStrBody_escape, ih]
    rfl

/-- The string-literal round-trip: parsing a serialized string recovers it. -/
theorem parseStrBody_ser (s : String) (rest : List Char) :
    parseStrBody (s.toList.flatMap escapeChar ++ '"' :: rest) = some (s.toList, rest) :=
  parseStrBody_flatMap s.toList rest

end Codefuse
namespace Codefuse

/-! ## The value round-trip -/

theorem stringMk_toList (s : String) : String.mk s.toList = s := rfl

theorem numDelim_rbracket (r : List Char) : numDelim (']' :: r) = true := rfl

theorem numDelim_rbrace (r : List Char) : numDelim ('}' :: r) = true := rfl

theorem numDelim_comma (r : List Char) : numDelim (',' :: r) = true := rfl

theorem digit_not_close {c : Char} (h : isDigitChar c = true) : c ≠ ']' ∧ c ≠ '}' := by
  simp only [isDigitChar, Bool.and_eq_true, decide_eq_true_eq] at h
  constructor <;> (intro hc; subst hc; revert h; decide)

/-- Every serialized value starts with a character that closes nothing. -/
theorem ser_head (v : Json) :
    ∃ c t, Json.ser v = c :: t ∧ c ≠ ']' ∧ c ≠ '}' := by
  cases v with
  | null => exact ⟨'n', _, rfl, by decide, by decide⟩
  | bool b =>
    cases b with
    | true => exact ⟨'t', _, rfl, by decide, by decide⟩
    | false => exact ⟨'f', _, rfl, by decide, by decide⟩
  | str s => exact ⟨'"', _, rfl, by decide, by decide⟩
  | arr items => exact ⟨'[', _, rfl, by decide, by decide⟩
  | obj fields => exact ⟨'{', _, rfl, by decide, by decide⟩
  | num n =>
    by_cases hneg : n < 0
    · exact ⟨'-', natChars n.natAbs [],
        by simp [Json.ser, intChars, hneg], by decide, by decide⟩
    · obtain ⟨c0, t0, h0⟩ : ∃ c0 t0, natChars n.natAbs [] = c0 :: t0 := by
        cases h : natChars n.natAbs [] with
        | nil => exact absurd h (natChars_ne_nil _)
        | cons a b => exact ⟨a, b, rfl⟩
      have hc0 : isDigitChar c0 = true :=
        natChars_all_digits n.natAbs c0 (h0 ▸ List.mem_cons_self _ _)
      obtain ⟨h1, h2⟩ := digit_not_close hc0
      exact ⟨c0, t0, by simp [Json.ser, intChars, hneg, h0], h1, h2⟩

theorem ser_ne_nil (v : Json) : Json.ser v ≠ [] := by
  obtain ⟨c, t, h, -, -⟩ := ser_head v
  simp [h]

/-- The array branch of the parser for a nonempty element list. -/
theorem parseVal_arr_dispatch (f : Nat) (c : Char) (X : List Char) (hc : c ≠ ']') :
    parseVal (f + 1) ('[' :: c :: X)
      = (parseItems f (c :: X)).map fun p => (.arr p.1, p.2) := by
  simp only [parseVal]
  rw [if_neg (by decide), if_neg (by decide), if_neg (by decide), if_neg (by decide)]
  simp only [if_true]
  split
  · rename_i heq
    rw [List.cons.injEq] at heq
    exact absurd heq.1 hc
  · rfl

/-- The object branch of the parser for a nonempty member list (which always
starts with the quote of its first key). -/
theorem parseVal_obj_dispatch (f : Nat) (X : List Char) :
    parseVal (f + 1) ('{' :: '"' :: X)
      = (parseMembers f ('"' :: X)).map fun p => (.obj (buildObj p.1), p.2) := by
  simp only [parseVal]
  rw [if_neg (by decide), if_neg (by decide), if_neg (by decide), if_neg (by decide),
    if_neg (by decide)]
  simp only [if_true]
  split
  · rename_i heq
    rw [List.cons.injEq] at heq
    exact absurd heq.1 (by decide)
  · rfl

/-- The number branch of the parser, reached from any sign or digit head. -/
theorem parseVal_num_dispatch (f : Nat) (c : Char) (t : List Char)
    (hc : c = '-' ∨ isDigitChar c = true) :
    parseVal (f + 1) (c :: t)
      = (parseNum (c :: t)).map fun p => (.num p.1, p.2) := by
  have hfacts : c ≠ 'n' ∧ c ≠ 't' ∧ c ≠ 'f' ∧ c ≠ '"' ∧ c ≠ '[' ∧ c ≠ '{' := by
    rcases hc with rfl | hd
    · exact ⟨by decide, by decide, by decide, by decide, by decide, by decide⟩
    · obtain ⟨_, _, h3, h4, h5, h6, h7, h8⟩ := digit_facts hd
      exact ⟨h3, h4, h5, h6, h7, h8⟩
  obtain ⟨hn, ht, hf', hq, hbk, hbc⟩ := hfacts
  have hg : (c = '-' || isDigitChar c) = true := by
    rcases hc with rfl | hd
    · simp
    · simp [hd]
  simp only [parseVal]
  rw [if_neg hn, if_neg ht, if_neg hf', if_neg hq, if_neg hbk, if_neg hbc, if_pos hg]

end Codefuse
namespace Codefuse

mutual
/-- Round-trip of one value: parsing its serialization yields its normalized
form and consumes exactly it, for any delimiter-headed remainder and any fuel
above the serialized length. -/
theorem rt_val : ∀ (v : Json) (fuel : Nat) (rest : List Char),
    (Json.ser v).length < fuel → numDelim rest = true →
    parseVal fuel (Json.ser v ++ rest) = some (v.normalize, rest)
  | .null, fuel, rest, hf, _ => by
    cases fuel with
    | zero => simp [Json.ser] at hf
    | succ f => simp [Json.ser, parseVal, stripPfx, Json.normalize]
  | .bool b, fuel, rest, hf, _ => by
    cases fuel with
    | zero => cases b <;> simp [Json.ser] at hf
    | succ f => cases b <;> simp [Json.ser, parseVal, stripPfx, Json.normalize]
  | .str s, fuel, rest, hf, _ => by
    cases fuel with
    | zero => exact absurd hf (Nat.not_lt_zero _)
    | succ f =>
      have harg : Json.ser (.str s) ++ rest
          = '"' :: (s.toList.flatMap escapeChar ++ '"' :: rest) := by
        simp [Json.ser, serStringLit]
      rw [harg]
      simp only [parseVal]
      rw [if_neg (by decide), if_neg (by decide), if_neg (by decide)]
      simp only [if_true]
      rw [parseStrBody_ser]
      simp [Json.normalize, stringMk_toList]
  | .num n, fuel, rest, hf, hr => by
    cases fuel with
    | zero => exact absurd hf (Nat.not_lt_zero _)
    | succ f =>
      obtain ⟨c0, t0, h0, -, -⟩ := ser_head (.num n)
      have hhead : c0 = '-' ∨ isDigitChar c0 = true := by
        rcases lt_or_ge n 0 with hneg | hpos
        · have hser : Json.ser (.num n) = '-' :: natChars n.natAbs [] := by
            simp [Json.ser, intChars, hneg]
          rw [hser] at h0
          rw [List.cons.injEq] at h0
          exact Or.inl h0.1.symm
        · right
          have hser : Json.ser (.num n) = natChars n.natAbs [] := by
            simp [Json.ser, intChars, not_lt.mpr hpos]
          rw [hser] at h0
          exact natChars_all_digits n.natAbs c0 (h0 ▸ List.mem_cons_self _ _)
      have harg : Json.ser (.num n) ++ rest = c0 :: (t0 ++ rest) := by
        rw [h0]
        rfl
      rw [harg, parseVal_num_dispatch f c0 (t0 ++ rest) hhead, ← List.cons_append, ← h0]
      have : Json.ser (.num n) = intChars n := rfl
      rw [this, parseNum_intChars n rest hr]
      rfl
  | .arr [], fuel, rest, hf, _ => by
    cases fuel with
    | zero => exact absurd hf (Nat.not_lt_zero _)
    | succ f => simp [Json.ser, serItems, parseVal, Json.normalize, normItems]
  | .arr (x :: xs), fuel, rest, hf, _ => by
    cases fuel with
    | zero => exact absurd hf (Nat.not_lt_zero _)
    | succ f =>
      obtain ⟨c, t, hx, hcne, -⟩ := ser_head x
      have harg : Json.ser (.arr (x :: xs)) ++ rest
          = '[' :: c :: (t ++ serItemsTail xs ++ ']' :: rest) := by
        simp [Json.ser, serItems, hx]
      have hlen : (serItems (x :: xs)).length + 2 < f + 1 := by
        have : (Json.ser (.arr (x :: xs))).length
            = (serItems (x :: xs)).length + 2 := by
          simp [Json.ser]
        omega
      obtain ⟨f2, rfl⟩ : ∃ f2, f = f2 + 1 := ⟨f - 1, by omega⟩
      have key := rt_items x xs f2 rest (by omega)
      have hstream : serItems (x :: xs) ++ ']' :: rest
          = c :: (t ++ serItemsTail xs ++ ']' :: rest) := by
        simp [serItems, hx]
      rw [harg, parseVal_arr_dispatch (f2 + 1) c _ hcne, ← hstream, key]
      simp [Json.normalize]
  | .obj [], fuel, rest, hf, _ => by
    cases fuel with
    | zero => exact absurd hf (Nat.not_lt_zero _)
    | succ f =>
      simp [Json.ser, serFields, parseVal, Json.normalize, normFields, buildObj]
  | .obj ((k, v) :: ms), fuel, rest, hf, _ => by
    cases fuel with
    | zero => exact absurd hf (Nat.not_lt_zero _)
    | succ f =>
      have harg : Json.ser (.obj ((k, v) :: ms)) ++ rest
          = '{' :: '"' :: (k.toList.flatMap escapeChar
              ++ '"' :: (':' :: (v.ser ++ serFieldsTail ms)) ++ '}' :: rest) := by
        simp [Json.ser, serFields, serStringLit]
      have hlen : (serFields ((k, v) :: ms)).length + 2 < f + 1 := by
        have : (Json.ser (.obj ((k, v) :: ms))).length
            = (serFields ((k, v) :: ms)).length + 2 := by
          simp [Json.ser]
        omega
      obtain ⟨f2, rfl⟩ : ∃ f2, f = f2 + 1 := ⟨f - 1, by omega⟩
      have key := rt_members (k, v) ms f2 rest (by omega)
      have hstream : serFields ((k, v) :: ms) ++ '}' :: rest
          = '"' :: (k.toList.flatMap escapeChar
              ++ '"' :: (':' :: (v.ser ++ serFieldsTail ms)) ++ '}' :: rest) := by
        simp [serFields, serStringLit]
      rw [harg, parseVal_obj_dispatch (f2 + 1) _, ← hstream, key]
      simp [Json.normalize]
termination_by v _ _ _ _ => sizeOf v

/-- Round-trip of a nonempty element list up to its closing bracket. -/
theorem rt_items : ∀ (x : Json) (xs : List Json) (fuel : Nat) (rest : List Char),
    (serItems (x :: xs)).length + 1 < fuel + 1 →
    parseItems (fuel + 1) (serItems (x :: xs) ++ ']' :: rest)
      = some (normItems (x :: xs), rest)
  | x, [], fuel, rest, hf => by
    have hxlen : (Json.ser x).length < fuel := by
      have : serItems [x] = Json.ser x ++ [] := by simp [serItems, serItemsTail]
      rw [this] at hf
      simp at hf
      omega
    have hv := rt_val x fuel (']' :: rest) hxlen (numDelim_rbracket rest)
    have harg : serItems [x] ++ ']' :: rest = Json.ser x ++ ']' :: rest := by
      simp [serItems, serItemsTail]
    rw [harg, parseItems_step, hv]
    simp [normItems]
  | x, y :: ys, fuel, rest, hf => by
    have hxpos : 1 ≤ (Json.ser x).length := by
      cases h : Json.ser x with
      | nil => exact absurd h (ser_ne_nil x)
      | cons a b => simp
    have hlens : (serItems (x :: y :: ys)).length
        = (Json.ser x).length + 1 + (serItems (y :: ys)).length := by
      simp [serItems, serItemsTail]
      omega
    have hxlen : (Json.ser x).length < fuel := by omega
    have hylen : (serItems (y :: ys)).length + 1 < fuel := by omega
    obtain ⟨f2, rfl⟩ : ∃ f2, fuel = f2 + 1 := ⟨fuel - 1, by omega⟩
    have hv := rt_val x (f2 + 1) (',' :: (serItems (y :: ys) ++ ']' :: rest)) hxlen
      (numDelim_comma _)
    have key := rt_items y ys f2 rest (by omega)
    have harg : serItems (x :: y :: ys) ++ ']' :: rest
        = Json.ser x ++ ',' :: (serItems (y :: ys) ++ ']' :: rest) := by
      simp [serItems, serItemsTail]
    rw [harg, parseItems_step, hv]
    simp only [Option.some_bind]
    rw [key]
    simp [normItems]
termination_by x xs _ _ _ => sizeOf x + sizeOf xs

/-- Round-trip of a nonempty member list up to its closing brace. -/
theorem rt_members : ∀ (kv : String × Json) (ms : List (String × Json))
    (fuel : Nat) (rest : List Char),
    (serFields (kv :: ms)).length + 1 < fuel + 1 →
    parseMembers (fuel + 1) (serFields (kv :: ms) ++ '}' :: rest)
      = some (normFields (kv :: ms), rest)
  | (k, v), [], fuel, rest, hf => by
    have hvlen : (Json.ser v).length < fuel := by
      have : (serFields [(k, v)]).length
          = (serStringLit k).length + 1 + (Json.ser v).length := by
        simp [serFields, serFieldsTail]
        omega
      have hk : 2 ≤ (serStringLit k).length := by
        simp [serStringLit]
      omega
    have hv := rt_val v fuel ('}' :: rest) hvlen (numDelim_rbrace rest)
    have harg : serFields [(k, v)] ++ '}' :: rest
        = '"' :: (k.toList.flatMap escapeChar ++ '"' :: (':' :: (v.ser ++ '}' :: rest))) := by
      simp [serFields, serFieldsTail, serStringLit]
    rw [harg, parseMembers_step, parseStrBody_ser]
    simp only [Option.some_bind]
    rw [hv]
    simp [normFields, stringMk_toList]
  | (k, v), (k2, v2) :: ms, fuel, rest, hf => by
    have hk : 2 ≤ (serStringLit k).length := by
      simp [serStringLit]
    have hlens : (serFields ((k, v) :: (k2, v2) :: ms)).length
        = (serStringLit k).length + 1 + (Json.ser v).length + 1
          + (serFields ((k2, v2) :: ms)).length := by
      simp [serFields, serFieldsTail]
      omega
    have hvlen : (Json.ser v).length < fuel := by omega
    have hmlen : (serFields ((k2, v2) :: ms)).length + 1 < fuel := by omega
    obtain ⟨f2, rfl⟩ : ∃ f2, fuel = f2 + 1 := ⟨fuel - 1, by omega⟩
    have hv := rt_val v (f2 + 1)
      (',' :: (serFields ((k2, v2) :: ms) ++ '}' :: rest)) hvlen (numDelim_comma _)
    have key := rt_members (k2, v2) ms f2 rest (by omega)
    have harg : serFields ((k, v) :: (k2, v2) :: ms) ++ '}' :: rest
        = '"' :: (k.toList.flatMap escapeChar
            ++ '"' :: (':' :: (v.ser ++ ',' :: (serFields ((k2, v2) :: ms) ++ '}' :: rest)))) := by
      simp [serFields, serFieldsTail, serStringLit]
    rw [harg, parseMembers_step, parseStrBody_ser]
    simp only [Option.some_bind]
    rw [hv]
    simp only [Option.some_bind]
    rw [key]
    simp [normFields, stringMk_toList]
termination_by kv ms _ _ _ => sizeOf kv + sizeOf ms
end

end Codefuse
namespace Codefuse

/-- The body-level round-trip: deserializing a serialized value gives back its
normalized form. -/
theorem parseJson_ser (v : Json) : parseJson (Json.ser v) = some v.normalize := by
  have h := rt_val v ((Json.ser v).length + 1) [] (by omega) rfl
  rw [List.append_nil] at h
  simp [parseJson, h]

/-! ## Normalization is idempotent

A parsed value is canonical: object keys strictly ascending at every level.
Normalizing is the identity on canonical values, so `Json.normalize` is
idempotent and `Json.equiv` (below) is reflexive-after-parse. -/

/-- Strictly ascending member keys. -/
def KeysOrdered (l : List (String × Json)) : Prop :=
  List.Pairwise (fun a b => strLt a.1 b.1 = true) l

theorem charListLt_irrefl : ∀ l : List Char, charListLt l l = false
  | [] => rfl
  | a :: as => by simp [charListLt, charListLt_irrefl as]

theorem strLt_irrefl (s : String) : strLt s s = false := charListLt_irrefl s.data

theorem charListLt_trans : ∀ (l₁ l₂ l₃ : List Char),
    charListLt l₁ l₂ = true → charListLt l₂ l₃ = true → charListLt l₁ l₃ = true := by
  intro l₁
  induction l₁ with
  | nil =>
    intro l₂ l₃ h12 h23
    cases l₂ with
    | nil => simp [charListLt] at h12
    | cons b bs =>
      cases l₃ with
      | nil => simp [charListLt] at h23
      | cons c cs => simp [charListLt]
  | cons a as ih =>
    intro l₂ l₃ h12 h23
    cases l₂ with
    | nil => simp [charListLt] at h12
    | cons b bs =>
      cases l₃ with
      | nil => simp [charListLt] at h23
      | cons c cs =>
        simp only [charListLt] at h12 h23 ⊢
        by_cases hab : a.toNat < b.toNat
        · by_cases hbc : b.toNat < c.toNat
          · rw [if_pos (by omega)]
          · rw [if_neg hbc] at h23
            by_cases hcb : c.toNat < b.toNat
            · rw [if_pos hcb] at h23; exact absurd h23 (by simp)
            · rw [if_pos (by omega)]
        · rw [if_neg hab] at h12
          by_cases hba : b.toNat < a.toNat
          · rw [if_pos hba] at h12; exact absurd h12 (by simp)
          · rw [if_neg hba] at h12
            by_cases hbc : b.toNat < c.toNat
            · rw [if_pos (by omega)]
            · rw [if_neg hbc] at h23
              by_cases hcb : c.toNat < b.toNat
              · rw [if_pos hcb] at h23; exact absurd h23 (by simp)
              · rw [if_neg hcb] at h23
                rw [if_neg (by omega), if_neg (by omega)]
                exact ih bs cs h12 h23

theorem strLt_trans {a b c : String} (h1 : strLt a b = true) (h2 : strLt b c = true) :
    strLt a c = true := charListLt_trans a.data b.data c.data h1 h2

theorem strLt_asymm {a b : String} (h : strLt a b = true) : strLt b a = false := by
  cases hba : strLt b a
  · rfl
  · have h3 := strLt_trans h hba
    rw [strLt_irrefl] at h3
    exact absurd h3 (by simp)

theorem charEq_of_toNat {a b : Char} (h : a.toNat = b.toNat) : a = b :=
  Char.ext (UInt32.ext h)

theorem charListLt_eq_of_not : ∀ (l₁ l₂ : List Char),
    charListLt l₁ l₂ = false → charListLt l₂ l₁ = false → l₁ = l₂ := by
  intro l₁
  induction l₁ with
  | nil =>
    intro l₂ h12 _
    cases l₂ with
    | nil => rfl
    | cons b bs => simp [charListLt] at h12
  | cons a as ih =>
    intro l₂ h12 h21
    cases l₂ with
    | nil => simp [charListLt] at h21
    | cons b bs =>
      simp only [charListLt] at h12 h21
      by_cases hab : a.toNat < b.toNat
      · rw [if_pos hab] at h12; exact absurd h12 (by simp)
      · rw [if_neg hab] at h12
        by_cases hba : b.toNat < a.toNat
        · rw [if_pos hba] at h21; exact absurd h21 (by simp)
        · rw [if_neg hba] at h12
          rw [if_neg hba, if_neg hab] at h21
          rw [charEq_of_toNat (show a.toNat = b.toNat by omega), ih bs h12 h21]

theorem strLt_eq_of_not {a b : String} (h1 : strLt a b = false) (h2 : strLt b a = false) :
    a = b := by
  cases a with
  | mk da =>
    cases b with
    | mk db => exact congrArg String.mk (charListLt_eq_of_not da db h1 h2)

mutual
/-- A value in the image of `Json.normalize`: every object level is a
sorted-unique map. -/
def Json.Canon : Json → Prop
  | .null => True
  | .bool _ => True
  | .num _ => True
  | .str _ => True
  | .arr items => CanonItems items
  | .obj fields => KeysOrdered fields ∧ CanonFields fields
/-- All elements canonical. -/
def CanonItems : List Json → Prop
  | [] => True
  | v :: t => v.Canon ∧ CanonItems t
/-- All member values canonical. -/
def CanonFields : List (String × Json) → Prop
  | [] => True
  | (_, v) :: t => v.Canon ∧ CanonFields t
end

theorem insertSorted_mem {k : String} {v : Json} :
    ∀ {l : List (String × Json)} {p : String × Json},
      p ∈ insertSorted k v l → p = (k, v) ∨ p ∈ l := by
  intro l
  induction l with
  | nil =>
    intro p hp
    simp [insertSorted] at hp
    exact Or.inl hp
  | cons hd t ih =>
    obtain ⟨k', v'⟩ := hd
    intro p hp
    simp only [insertSorted] at hp
    by_cases hlt : strLt k k' = true
    · rw [if_pos hlt] at hp
      rcases List.mem_cons.mp hp with rfl | hp2
      · exact Or.inl rfl
      · exact Or.inr hp2
    · rw [if_neg hlt] at hp
      by_cases heq : k = k'
      · rw [if_pos heq] at hp
        rcases List.mem_cons.mp hp with rfl | hp2
        · exact Or.inl rfl
        · exact Or.inr (List.mem_cons_of_mem _ hp2)
      · rw [if_neg heq] at hp
        rcases List.mem_cons.mp hp with rfl | hp2
        · exact Or.inr (List.mem_cons_self _ _)
        · rcases ih hp2 with h | h
          · exact Or.inl h
          · exact Or.inr (List.mem_cons_of_mem _ h)

theorem insertSorted_keysOrdered (k : String) (v : Json) :
    ∀ l : List (String × Json), KeysOrdered l → KeysOrdered (insertSorted k v l) := by
  intro l
  induction l with
  | nil =>
    intro _
    simp [insertSorted, KeysOrdered]
  | cons hd t ih =>
    obtain ⟨k', v'⟩ := hd
    intro hord
    rw [KeysOrdered, List.pairwise_cons] at hord
    obtain ⟨hall, htail⟩ := hord
    simp only [insertSorted]
    by_cases hlt : strLt k k' = true
    · rw [if_pos hlt]
      rw [KeysOrdered, List.pairwise_cons]
      refine ⟨?_, ?_⟩
      · intro p hp
        rcases List.mem_cons.mp hp with rfl | hpt
        · exact hlt
        · exact strLt_trans hlt (hall p hpt)
      · rw [List.pairwise_cons]
        exact ⟨hall, htail⟩
    · rw [if_neg hlt]
      by_cases heq : k = k'
      · rw [if_pos heq]
        rw [KeysOrdered, List.pairwise_cons]
        exact ⟨fun p hp => heq ▸ hall p hp, htail⟩
      · rw [if_neg heq]
        have hk'k : strLt k' k = true := by
          cases h' : strLt k' k
          · have hf : strLt k k' = false := by
              cases h'' : strLt k k'
              · rfl
              · exact absurd h'' hlt
            exact absurd (strLt_eq_of_not hf h') heq
          · rfl
        rw [KeysOrdered, List.pairwise_cons]
        refine ⟨?_, ih htail⟩
        intro p hp
        rcases insertSorted_mem hp with rfl | hpt
        · exact hk'k
        · exact hall p hpt

theorem insertSorted_canonFields (k : String) (v : Json) (hv : v.Canon) :
    ∀ l : List (String × Json), CanonFields l → CanonFields (insertSorted k v l) := by
  intro l
  induction l with
  | nil =>
    intro _
    simpa [insertSorted, CanonFields] using hv
  | cons hd t ih =>
    obtain ⟨k', v'⟩ := hd
    intro hc
    rw [CanonFields] at hc
    obtain ⟨hv', htail⟩ := hc
    simp only [insertSorted]
    by_cases hlt : strLt k k' = true
    · rw [if_pos hlt]
      exact ⟨hv, hv', htail⟩
    · rw [if_neg hlt]
      by_cases heq : k = k'
      · rw [if_pos heq]
        exact ⟨hv, htail⟩
      · rw [if_neg heq]
        exact ⟨hv', ih htail⟩

theorem foldIns_keysOrdered :
    ∀ (l : List (String × Json)) (acc : List (String × Json)), KeysOrdered acc →
      KeysOrdered (l.foldl (fun m kv => insertSorted kv.1 kv.2 m) acc) := by
  intro l
  induction l with
  | nil => intro acc h; exact h
  | cons hd t ih =>
    intro acc h
    exact ih _ (insertSorted_keysOrdered hd.1 hd.2 acc h)

theorem foldIns_canonFields :
    ∀ (l : List (String × Json)) (acc : List (String × Json)), CanonFields acc →
      (∀ kv ∈ l, Json.Canon kv.2) →
      CanonFields (l.foldl (fun m kv => insertSorted kv.1 kv.2 m) acc) := by
  intro l
  induction l with
  | nil => intro acc h _; exact h
  | cons hd t ih =>
    intro acc h hall
    exact ih _ (insertSorted_canonFields hd.1 hd.2 (hall hd (List.mem_cons_self _ _)) acc h)
      fun kv hkv => hall kv (List.mem_cons_of_mem _ hkv)

end Codefuse
namespace Codefuse

mutual
/-- Normalization always lands in the canonical fragment. -/
theorem normalize_canon : ∀ v : Json, (Json.normalize v).Canon
  | .null => trivial
  | .bool _ => trivial
  | .num _ => trivial
  | .str _ => trivial
  | .arr items => by
    simp only [Json.normalize, Json.Canon]
    exact normItems_canon items
  | .obj fields => by
    simp only [Json.normalize, Json.Canon, buildObj]
    refine ⟨foldIns_keysOrdered _ [] (by simp [KeysOrdered]), ?_⟩
    exact foldIns_canonFields _ [] trivial (normFields_values_canon fields)
termination_by v => sizeOf v

/-- All normalized array elements are canonical. -/
theorem normItems_canon : ∀ items : List Json, CanonItems (normItems items)
  | [] => trivial
  | v :: t => by
    simp only [normItems, CanonItems]
    exact ⟨normalize_canon v, normItems_canon t⟩
termination_by items => sizeOf items

/-- All normalized member values are canonical. -/
theorem normFields_values_canon :
    ∀ fields : List (String × Json), ∀ kv ∈ normFields fields, Json.Canon kv.2
  | [], kv, hkv => by simp [normFields] at hkv
  | (k, v) :: t, kv, hkv => by
    simp only [normFields, List.mem_cons] at hkv
    rcases hkv with rfl | hkv
    · exact normalize_canon v
    · exact normFields_values_canon t kv hkv
termination_by fields _ _ => sizeOf fields
end

/-- Inserting a key above everything in a sorted list appends it. -/
theorem insertSorted_append (k : String) (v : Json) :
    ∀ l : List (String × Json), (∀ p ∈ l, strLt p.1 k = true) →
      insertSorted k v l = l ++ [(k, v)] := by
  intro l
  induction l with
  | nil => intro _; rfl
  | cons hd t ih =>
    obtain ⟨k', v'⟩ := hd
    intro hall
    have hk' : strLt k' k = true := hall (k', v') (List.mem_cons_self _ _)
    simp only [insertSorted]
    rw [if_neg (by rw [strLt_asymm hk']; simp),
      if_neg (by rintro rfl; rw [strLt_irrefl] at hk'; exact absurd hk' (by simp))]
    rw [ih fun p hp => hall p (List.mem_cons_of_mem _ hp)]
    simp

/-- Folding inserts of an already sorted run extends the accumulator by it. -/
theorem foldIns_sorted_append :
    ∀ (l acc : List (String × Json)), KeysOrdered (acc ++ l) →
      l.foldl (fun m kv => insertSorted kv.1 kv.2 m) acc = acc ++ l := by
  intro l
  induction l with
  | nil => intro acc _; simp
  | cons hd t ih =>
    obtain ⟨k, v⟩ := hd
    intro acc hord
    have hsplit := (List.pairwise_append.mp hord)
    have hacc_lt : ∀ p ∈ acc, strLt p.1 k = true :=
      fun p hp => hsplit.2.2 p hp (k, v) (List.mem_cons_self _ _)
    have hstep : insertSorted k v acc = acc ++ [(k, v)] := insertSorted_append k v acc hacc_lt
    have hord2 : KeysOrdered ((acc ++ [(k, v)]) ++ t) := by
      rw [List.append_assoc]
      simpa using hord
    simp only [List.foldl_cons, hstep]
    rw [ih _ hord2]
    simp

/-- `buildObj` is the identity on a sorted-unique member list. -/
theorem buildObj_ordered_id (l : List (String × Json)) (h : KeysOrdered l) :
    buildObj l = l := by
  have := foldIns_sorted_append l [] (by simpa using h)
  simpa [buildObj] using this

mutual
/-- Normalization is the identity on canonical values. -/
theorem canon_normalize_id : ∀ v : Json, v.Canon → Json.normalize v = v
  | .null, _ => rfl
  | .bool _, _ => rfl
  | .num _, _ => rfl
  | .str _, _ => rfl
  | .arr items, h => by
    simp only [Json.Canon] at h
    simp only [Json.normalize]
    rw [canonItems_normItems_id items h]
  | .obj fields, h => by
    obtain ⟨hord, hfields⟩ := h
    simp only [Json.normalize]
    rw [canonFields_normFields_id fields hfields, buildObj_ordered_id fields hord]
termination_by v _ => sizeOf v

/-- Element-wise identity for canonical arrays. -/
theorem canonItems_normItems_id :
    ∀ items : List Json, CanonItems items → normItems items = items
  | [], _ => rfl
  | v :: t, h => by
    obtain ⟨hv, ht⟩ := h
    simp only [normItems]
    rw [canon_normalize_id v hv, canonItems_normItems_id t ht]
termination_by items _ => sizeOf items

/-- Member-wise identity for canonical member lists. -/
theorem canonFields_normFields_id :
    ∀ fields : List (String × Json), CanonFields fields → normFields fields = fields
  | [], _ => rfl
  | (k, v) :: t, h => by
    obtain ⟨hv, ht⟩ := h
    simp only [normFields]
    rw [canon_normalize_id v hv, canonFields_normFields_id t ht]
termination_by fields _ => sizeOf fields
end

/-- Normalization is idempotent. -/
theorem normalize_idem (v : Json) : (Json.normalize v).normalize = Json.normalize v :=
  canon_normalize_id _ (normalize_canon v)

end Codefuse
namespace Codefuse

/-! ## Reading back the emitted frame -/

theorem stripPlus_not_plus {c : Char} {t : List Char} (h : c ≠ '+') :
    stripPlus (c :: t) = c :: t := by
  unfold stripPlus
  split
  · rename_i heq
    rw [List.cons.injEq] at heq
    exact absurd heq.1 h
  · rfl

/-- Parsing canonical digits as a `usize` recovers the number. -/
theorem parseUsize_natChars (n : Nat) (hn : n < 2 ^ 64) :
    parseUsize (natChars n []) = some n := by
  obtain ⟨c0, t0, h0⟩ : ∃ c0 t0, natChars n [] = c0 :: t0 := by
    cases h : natChars n [] with
    | nil => exact absurd h (natChars_ne_nil _)
    | cons a b => exact ⟨a, b, rfl⟩
  have hc0 : isDigitChar c0 = true := natChars_all_digits n c0 (h0 ▸ List.mem_cons_self _ _)
  have hplus : c0 ≠ '+' := (digit_facts hc0).2.1
  have hstrip : stripPlus (natChars n []) = natChars n [] := by
    rw [h0]
    exact stripPlus_not_plus hplus
  have hall : (natChars n []).all isDigitChar = true :=
    List.all_eq_true.mpr fun c hc => natChars_all_digits n c hc
  simp only [parseUsize, hstrip]
  rw [if_pos ⟨natChars_ne_nil n, hall⟩, digitsVal_natChars, if_pos hn]

/-- `read_line` consumes through the first newline. -/
theorem readLine_append (a : List Char) (r : List Char) (ha : '\n' ∉ a) :
    readLine (a ++ '\n' :: r) = (a ++ ['\n'], r) := by
  induction a with
  | nil => simp [readLine]
  | cons c t ih =>
    have hc : c ≠ '\n' := fun h => ha (h ▸ List.mem_cons_self _ _)
    have ht : '\n' ∉ t := fun h => ha (List.mem_cons_of_mem _ h)
    simp only [List.cons_append, readLine, if_neg hc, List.append_eq, ih ht]

theorem digit_not_ws {c : Char} (h : isDigitChar c = true) :
    isWsChar c = false ∧ c ≠ '\n' := by
  simp only [isDigitChar, Bool.and_eq_true, decide_eq_true_eq] at h
  constructor
  · simp only [isWsChar, Bool.or_eq_false_iff, decide_eq_false_iff_not]
    refine ⟨⟨⟨⟨⟨?_, ?_⟩, ?_⟩, ?_⟩, ?_⟩, ?_⟩ <;> (rintro rfl; revert h; decide)
  · rintro rfl; revert h; decide

/-- Dropping whitespace stops at the head of a non-whitespace-headed tail. -/
theorem dropWhile_ws_append (a : List Char) {c : Char} {t : List Char}
    (hc : isWsChar c = false) :
    (a ++ c :: t).dropWhile isWsChar = a.dropWhile isWsChar ++ c :: t := by
  induction a with
  | nil => simp [List.dropWhile_cons, hc]
  | cons x xs ih =>
    by_cases hx : isWsChar x
    · simp [List.dropWhile_cons, hx, ih]
    · simp [List.dropWhile_cons, hx]

theorem stripPfx_self_append (p : List Char) (r : List Char) :
    stripPfx p (p ++ r) = some r := by
  induction p with
  | nil => rfl
  | cons c t ih => simp [stripPfx, ih]

/-- Trimming the digits of a `Content-Length` value is the identity. -/
theorem trimChars_digits (ds : List Char) (hne : ds ≠ [])
    (hds : ∀ c ∈ ds, isDigitChar c = true) :
    trimChars (' ' :: ds) = ds := by
  obtain ⟨d0, t0, h0⟩ : ∃ d0 t0, ds = d0 :: t0 := by
    cases ds with
    | nil => exact absurd rfl hne
    | cons a b => exact ⟨a, b, rfl⟩
  obtain ⟨dr, tr, hr⟩ : ∃ dr tr, ds.reverse = dr :: tr := by
    cases h : ds.reverse with
    | nil => exact absurd (by simpa using congrArg List.reverse h) hne
    | cons a b => exact ⟨a, b, rfl⟩
  have hd0 : isDigitChar d0 = true := hds d0 (h0 ▸ List.mem_cons_self _ _)
  have hdr : isDigitChar dr = true :=
    hds dr (by
      have : dr ∈ ds.reverse := hr ▸ List.mem_cons_self _ _
      simpa using this)
  simp only [trimChars]
  rw [List.dropWhile_cons]
  rw [if_pos (by decide)]
  rw [show ds.dropWhile isWsChar = ds by rw [h0]; simp [List.dropWhile_cons, (digit_not_ws hd0).1]]
  rw [hr, List.dropWhile_cons, if_neg (by simp [(digit_not_ws hdr).1])]
  rw [← hr, List.reverse_reverse]

end Codefuse
namespace Codefuse

/-- Trimming the emitted header line leaves the name and value. -/
theorem trim_cl_line (ds : List Char) (hne : ds ≠ [])
    (hds : ∀ c ∈ ds, isDigitChar c = true) :
    trimChars ("Content-Length: ".toList ++ ds ++ ['\r', '\n'])
      = "Content-Length: ".toList ++ ds := by
  obtain ⟨dr, tr, hr⟩ : ∃ dr tr, ds.reverse = dr :: tr := by
    cases h : ds.reverse with
    | nil => exact absurd (by simpa using congrArg List.reverse h) hne
    | cons a b => exact ⟨a, b, rfl⟩
  have hdr : isDigitChar dr = true :=
    hds dr (by
      have : dr ∈ ds.reverse := hr ▸ List.mem_cons_self _ _
      simpa using this)
  have hpfx : "Content-Length: ".toList = 'C' :: "ontent-Length: ".toList := rfl
  simp only [trimChars]
  rw [show ("Content-Length: ".toList ++ ds ++ ['\r', '\n']).dropWhile isWsChar
      = "Content-Length: ".toList ++ ds ++ ['\r', '\n'] by
    rw [hpfx]
    simp only [List.cons_append, List.dropWhile_cons]
    rw [if_neg (by decide)]]
  rw [show ("Content-Length: ".toList ++ ds ++ ['\r', '\n']).reverse
      = '\n' :: '\r' :: (ds.reverse ++ "Content-Length: ".toList.reverse) by
    simp]
  rw [List.dropWhile_cons, if_pos (by decide), List.dropWhile_cons, if_pos (by decide)]
  rw [hr, List.cons_append, List.dropWhile_cons, if_neg (by simp [(digit_not_ws hdr).1])]
  rw [← List.cons_append, ← hr]
  simp

/-- The header block the writer emits parses back to its own length value and
leaves exactly the body. -/
theorem readHeader_frame (f : Nat) (L : Nat) (body : List Char) (hL : L < 2 ^ 64) :
    readHeaderGo (f + 2) none
      (("Content-Length: ".toList ++ natChars L []) ++ ('\r' :: '\n' :: '\r' :: '\n' :: body))
      = .ok (some L, body) := by
  set P := "Content-Length: ".toList with hP
  set ds := natChars L [] with hds
  have hdig : ∀ c ∈ ds, isDigitChar c = true := natChars_all_digits L
  have hnoNl : '\n' ∉ (P ++ ds) ++ ['\r'] := by
    intro hmem
    rcases List.mem_append.mp hmem with hmem | hmem
    · rcases List.mem_append.mp hmem with hmem | hmem
      · revert hmem
        rw [hP]
        decide
      · exact absurd rfl (digit_not_ws (hdig _ hmem)).2
    · simp at hmem
  have hstream : (P ++ ds) ++ ('\r' :: '\n' :: '\r' :: '\n' :: body)
      = ((P ++ ds) ++ ['\r']) ++ '\n' :: ('\r' :: '\n' :: body) := by
    simp
  have hline := readLine_append ((P ++ ds) ++ ['\r']) ('\r' :: '\n' :: body) hnoNl
  have hlineArg : ((P ++ ds) ++ ['\r']) ++ ['\n'] = P ++ ds ++ ['\r', '\n'] := by
    simp
  have htrim : trimChars (((P ++ ds) ++ ['\r']) ++ ['\n']) = P ++ ds := by
    rw [hlineArg]
    exact hP ▸ trim_cl_line ds (natChars_ne_nil L) hdig
  have hPD : P ++ ds = "Content-Length:".toList ++ (' ' :: ds) := by
    rw [hP]
    simp [show "Content-Length: ".toList = "Content-Length:".toList ++ [' '] from rfl]
  have hstrip : stripPfx "Content-Length:".toList (P ++ ds) = some (' ' :: ds) := by
    rw [hPD]
    exact stripPfx_self_append _ _
  have hne : P ++ ds ≠ [] := by
    rw [hP]
    simp [show "Content-Length: ".toList
      = 'C' :: "ontent-Length: ".toList from rfl]
  have husize : parseUsize (trimChars (' ' :: ds)) = some L := by
    rw [trimChars_digits ds (natChars_ne_nil L) hdig, hds, parseUsize_natChars L hL]
  have hline2 : readLine ('\r' :: '\n' :: body) = (['\r', '\n'], body) :=
    readLine_append ['\r'] body (by decide)
  have htrim2 : trimChars ['\r', '\n'] = [] := rfl
  rw [show f + 2 = (f + 1) + 1 from rfl]
  rw [readHeaderGo, hstream, hline]
  simp only [htrim, hstrip, husize]
  rw [if_neg hne]
  rw [readHeaderGo, hline2]
  simp [htrim2]

/-- `read_exact` of a prefix's exact byte length returns that prefix. -/
theorem takeBytes_exact (a : List Char) : ∀ r : List Char,
    takeBytes (byteLen a) (a ++ r) = some (a, r) := by
  induction a with
  | nil =>
    intro r
    simp [takeBytes, takeBytesFrom, byteLen]
  | cons c t ih =>
    intro r
    have hsize : 1 ≤ c.utf8Size := Char.utf8Size_pos c
    have hby : byteLen (c :: t) = c.utf8Size + byteLen t := by
      simp [byteLen]
    obtain ⟨m, hm⟩ : ∃ m, byteLen (c :: t) = m + 1 := ⟨byteLen (c :: t) - 1, by omega⟩
    have hrest : m + 1 - c.utf8Size = byteLen t := by omega
    simp only [takeBytes] at ih ⊢
    rw [hm, List.cons_append, takeBytesFrom, if_pos (by omega), hrest, ih r]
    rfl

end Codefuse
namespace Codefuse

/-- The emitted header block parses back to the emitted byte length, leaving
exactly the body. -/
theorem readHeader_format (v : Json) (hL : byteLen (Json.ser v) < 2 ^ 64) :
    readHeaderGo ((format_lsp_message v).length + 1) none (format_lsp_message v)
      = Except.ok (some (byteLen (Json.ser v)), Json.ser v) := by
  have hfuel : (format_lsp_message v).length - 1 + 2 = (format_lsp_message v).length + 1 := by
    have : 2 ≤ (format_lsp_message v).length := by
      simp [format_lsp_message]
    omega
  have hheader := readHeader_frame ((format_lsp_message v).length - 1)
    (byteLen (Json.ser v)) (Json.ser v) hL
  rw [← hfuel]
  exact hheader

/-- One outer reader-loop iteration consumes a whole emitted frame, for any
positive fuel (the header loop budgets its own fuel from the stream). -/
theorem readFrameGo_format (g : Nat) (v : Json) (hL : byteLen (Json.ser v) < 2 ^ 64) :
    readFrameGo (g + 1) (format_lsp_message v) = .ok (v.normalize, []) := by
  have hbody : takeBytes (byteLen (Json.ser v)) (Json.ser v) = some (Json.ser v, []) := by
    have := takeBytes_exact (Json.ser v) []
    simpa using this
  rw [readFrameGo, readHeader_format v hL]
  simp only [hbody, parseJson_ser]

/-- The full frame round-trip: reading the stream the writer emitted yields
the (normalized) value and consumes the whole stream. The byte-length bound
is the 64-bit `usize` range every real Rust string length satisfies. -/
theorem readFrame_format (v : Json) (hL : byteLen (Json.ser v) < 2 ^ 64) :
    readFrame (format_lsp_message v) = .ok (v.normalize, []) :=
  readFrameGo_format (format_lsp_message v).length v hL

/-- A header block with no `Content-Length` is skipped and reading continues
with the next block: a junk block followed by a well-formed frame still
yields the frame (where the claim instead requires a BadHeader failure). -/
theorem readFrame_skip_junk (v : Json) (hL : byteLen (Json.ser v) < 2 ^ 64) :
    readFrame ("X-Junk: 1\r\n\r\n".toList ++ format_lsp_message v)
      = .ok (v.normalize, []) := by
  set fmt := format_lsp_message v with hfmt
  have hslen : ("X-Junk: 1\r\n\r\n".toList ++ fmt).length = fmt.length + 13 := by
    simp
  have hsplit : "X-Junk: 1\r\n\r\n".toList ++ fmt
      = "X-Junk: 1\r".toList ++ '\n' :: ('\r' :: '\n' :: fmt) := rfl
  have h1 := readLine_append "X-Junk: 1\r".toList ('\r' :: '\n' :: fmt) (by decide)
  have h2 : readLine ('\r' :: '\n' :: fmt) = (['\r', '\n'], fmt) :=
    readLine_append ['\r'] fmt (by decide)
  have htrim1 : trimChars ("X-Junk: 1\r".toList ++ ['\n']) = "X-Junk: 1".toList := rfl
  have hstrip1 : stripPfx "Content-Length:".toList "X-Junk: 1".toList = none := rfl
  have hm1 : ("X-Junk: 1\r\n\r\n".toList ++ fmt).length = (fmt.length + 12) + 1 := by
    omega
  rw [readFrame, readFrameGo, hm1]
  rw [readHeaderGo, hsplit, h1]
  simp only [htrim1, hstrip1]
  rw [if_neg (by decide)]
  rw [readHeaderGo, h2]
  simp only [show trimChars ['\r', '\n'] = [] from rfl, if_true]
  exact readFrameGo_format (fmt.length + 12) v hL

end Codefuse
namespace Codefuse

/-! ## Trace projections and pending-table facts -/

/-- The governing method name `handle_from_backend` determines in its first
step: for an id-carrying message the method recorded for that `u64` id (if
any), otherwise the message's own method name. -/
def governingMethod (pending : PendingTable) (rpc : Json) : Option String :=
  match rpc.get "id" with
  | some idVal =>
    match idVal.asU64 with
    | some id => (tableRemove id pending).1
    | none => none
  | none => (rpc.get "method").bind Json.asStr

/-- The messages a trace enqueues on the backend writer queue, in order. -/
def sentBackend (evs : List Event) : List (List Char) :=
  evs.filterMap fun e =>
    match e with
    | .sendBackend m => some m
    | _ => none

/-- The messages a trace enqueues on the frontend writer queue, in order. -/
def sentFrontend (evs : List Event) : List (List Char) :=
  evs.filterMap fun e =>
    match e with
    | .sendFrontend m => some m
    | _ => none

/-- Does the event write to the frontend queue. -/
def Event.isSendFrontend : Event → Bool
  | .sendFrontend _ => true
  | _ => false

/-- Does the event write to the backend queue. -/
def Event.isSendBackend : Event → Bool
  | .sendBackend _ => true
  | _ => false

/-- Is the event a pending-table insertion. -/
def Event.isInsert : Event → Bool
  | .insertPending _ _ => true
  | _ => false

/-- Is the event a pending-table removal. -/
def Event.isRemove : Event → Bool
  | .removePending _ _ => true
  | _ => false

theorem tableRemove_found (id : Nat) :
    ∀ pending : PendingTable, tableHasKey id pending = true →
      ∃ m, (tableRemove id pending).1 = some m := by
  intro pending
  induction pending with
  | nil => intro h; simp [tableHasKey] at h
  | cons hd t ih =>
    obtain ⟨i, v⟩ := hd
    intro h
    simp only [tableHasKey, Bool.or_eq_true, decide_eq_true_eq] at h
    by_cases hi : i = id
    · exact ⟨v, by simp [tableRemove, hi]⟩
    · obtain ⟨m, hm⟩ := ih (by tauto)
      refine ⟨m, ?_⟩
      simp only [tableRemove, if_neg hi]
      rw [show (tableRemove id t) = ((tableRemove id t).1, (tableRemove id t).2) from rfl] at hm ⊢
      simpa using hm

theorem tableHasKey_mem (id : Nat) :
    ∀ pending : PendingTable, tableHasKey id pending = true →
      ∃ m, (id, m) ∈ pending := by
  intro pending
  induction pending with
  | nil => intro h; simp [tableHasKey] at h
  | cons hd t ih =>
    obtain ⟨i, v⟩ := hd
    intro h
    simp only [tableHasKey, Bool.or_eq_true, decide_eq_true_eq] at h
    by_cases hi : i = id
    · exact ⟨v, by simp [hi]⟩
    · obtain ⟨m, hm⟩ := ih (by tauto)
      exact ⟨m, List.mem_cons_of_mem _ hm⟩

theorem tableRemove_not_hasKey (id : Nat) :
    ∀ pending : PendingTable, (pending.map Prod.fst).Nodup →
      tableHasKey id (tableRemove id pending).2 = false := by
  intro pending
  induction pending with
  | nil => intro _; simp [tableRemove, tableHasKey]
  | cons hd t ih =>
    obtain ⟨i, v⟩ := hd
    intro hnodup
    rw [List.map_cons, List.nodup_cons] at hnodup
    obtain ⟨hni, hnt⟩ := hnodup
    by_cases hi : i = id
    · rw [show tableRemove id ((i, v) :: t) = (some v, t) from by simp [tableRemove, hi]]
      by_contra hkey
      rw [Bool.not_eq_false] at hkey
      obtain ⟨m, hm⟩ := tableHasKey_mem id t hkey
      exact hni (List.mem_map.mpr ⟨(id, m), hm, by simp [hi]⟩)
    · simp only [tableRemove, if_neg hi]
      rw [show (tableRemove id t) = ((tableRemove id t).1, (tableRemove id t).2) from rfl]
      simp only [tableHasKey, Bool.or_eq_true, decide_eq_true_eq]
      simp only [Bool.or_eq_false_iff]
      exact ⟨by simpa using hi, ih hnt⟩

end Codefuse
namespace Codefuse

/-! ## Dispatcher trace equations -/

theorem governingMethod_eq_step (pending : PendingTable) (rpc : Json) :
    governingMethod pending rpc = (backendGoverning pending rpc).1 := by
  rcases hid : rpc.get "id" with _ | idVal
  · simp only [governingMethod, backendGoverning, hid]
  · rcases hu : idVal.asU64 with _ | i
    · simp only [governingMethod, backendGoverning, hid, hu]
    · obtain ⟨f, t2, hpr⟩ : ∃ f t, tableRemove i pending = (f, t) := ⟨_, _, rfl⟩
      simp only [governingMethod, backendGoverning, hid, hu, hpr]

theorem frontend_trace_forward (reg : Registry) (pending : PendingTable) (rpc : Json)
    (hL : regLookup reg (((rpc.get "method").bind Json.asStr).getD "") = none) :
    (handle_from_frontend reg pending rpc).2
      = (recordPending pending rpc).2 ++ [.sendBackend (format_lsp_message rpc)] := by
  simp only [handle_from_frontend, hL]

theorem frontend_trace_handler (reg : Registry) (pending : PendingTable) (rpc : Json)
    (h : Handler)
    (hL : regLookup reg (((rpc.get "method").bind Json.asStr).getD "") = some h) :
    (handle_from_frontend reg pending rpc).2
      = (recordPending pending rpc).2 ++ handlerEvents (h rpc) .sendBackend := by
  simp only [handle_from_frontend, hL]

theorem frontend_table (reg : Registry) (pending : PendingTable) (rpc : Json) :
    (handle_from_frontend reg pending rpc).1 = (recordPending pending rpc).1 := by
  simp only [handle_from_frontend]
  rcases regLookup reg (((rpc.get "method").bind Json.asStr).getD "") with _ | h <;> rfl

theorem backend_trace_none (reg : Registry) (pending : PendingTable) (rpc : Json)
    (hs : (backendGoverning pending rpc).1 = none) :
    (handle_from_backend reg pending rpc).2
      = (backendGoverning pending rpc).2.2 ++ [.sendFrontend (format_lsp_message rpc)] := by
  simp only [handle_from_backend, hs]

theorem backend_trace_unreg (reg : Registry) (pending : PendingTable) (rpc : Json)
    (m : String) (hs : (backendGoverning pending rpc).1 = some m)
    (hL : regLookup reg m = none) :
    (handle_from_backend reg pending rpc).2
      = (backendGoverning pending rpc).2.2 ++ [.sendFrontend (format_lsp_message rpc)] := by
  simp only [handle_from_backend, hs, hL]

theorem backend_trace_handler (reg : Registry) (pending : PendingTable) (rpc : Json)
    (m : String) (h : Handler) (hs : (backendGoverning pending rpc).1 = some m)
    (hL : regLookup reg m = some h) :
    (handle_from_backend reg pending rpc).2
      = (backendGoverning pending rpc).2.2 ++ handlerEvents (h rpc) .sendFrontend := by
  simp only [handle_from_backend, hs, hL]

theorem backend_table (reg : Registry) (pending : PendingTable) (rpc : Json) :
    (handle_from_backend reg pending rpc).1 = (backendGoverning pending rpc).2.1 := by
  rcases hs : (backendGoverning pending rpc).1 with _ | m
  · simp only [handle_from_backend, hs]
  · rcases hL : regLookup reg m with _ | h <;> simp only [handle_from_backend, hs, hL]

theorem backendGoverning_u64 (pending : PendingTable) (rpc idVal : Json) (id : Nat)
    (hid : rpc.get "id" = some idVal) (hu : idVal.asU64 = some id) :
    backendGoverning pending rpc
      = ((tableRemove id pending).1, (tableRemove id pending).2,
         [.removePending id (tableRemove id pending).1]) := by
  obtain ⟨f, t2, hpr⟩ : ∃ f t, tableRemove id pending = (f, t) := ⟨_, _, rfl⟩
  simp only [backendGoverning, hid, hu, hpr]

theorem backendGoverning_non_u64 (pending : PendingTable) (rpc idVal : Json)
    (hid : rpc.get "id" = some idVal) (hu : idVal.asU64 = none) :
    backendGoverning pending rpc = (none, pending, []) := by
  simp only [backendGoverning, hid, hu]

theorem backendGoverning_no_id (pending : PendingTable) (rpc : Json)
    (hid : rpc.get "id" = none) :
    backendGoverning pending rpc = ((rpc.get "method").bind Json.asStr, pending, []) := by
  simp only [backendGoverning, hid]

theorem recordPending_non_u64 (pending : PendingTable) (rpc idVal : Json)
    (hid : rpc.get "id" = some idVal) (hu : idVal.asU64 = none) :
    recordPending pending rpc = (pending, []) := by
  rcases hm : rpc.get "method" with _ | mVal
  · simp only [recordPending, hid, hm]
  · rcases hs : mVal.asStr with _ | m <;> simp only [recordPending, hid, hm, hu, hs]

theorem recordPending_no_id (pending : PendingTable) (rpc : Json)
    (hid : rpc.get "id" = none) :
    recordPending pending rpc = (pending, []) := by
  rcases hm : rpc.get "method" with _ | mVal <;> simp only [recordPending, hid, hm]

/-! ## Event shapes of the two directions -/

theorem recordPending_events (pending : PendingTable) (rpc : Json) :
    ∀ e ∈ (recordPending pending rpc).2, e.isInsert = true := by
  intro e he
  rcases hid : rpc.get "id" with _ | idVal <;> rcases hm : rpc.get "method" with _ | mVal
  · simp [recordPending, hid, hm] at he
  · simp [recordPending, hid, hm] at he
  · simp [recordPending, hid, hm] at he
  · rcases hu : idVal.asU64 with _ | i <;> rcases hs : mVal.asStr with _ | m
    · simp [recordPending, hid, hm, hu, hs] at he
    · simp [recordPending, hid, hm, hu, hs] at he
    · simp [recordPending, hid, hm, hu, hs] at he
    · simp [recordPending, hid, hm, hu, hs] at he
      subst he
      rfl

theorem backendGoverning_events (pending : PendingTable) (rpc : Json) :
    ∀ e ∈ (backendGoverning pending rpc).2.2, e.isRemove = true := by
  intro e he
  rcases hid : rpc.get "id" with _ | idVal
  · simp [backendGoverning, hid] at he
  · rcases hu : idVal.asU64 with _ | i
    · simp [backendGoverning, hid, hu] at he
    · obtain ⟨f, t2, hpr⟩ : ∃ f t, tableRemove i pending = (f, t) := ⟨_, _, rfl⟩
      simp [backendGoverning, hid, hu, hpr] at he
      subst he
      rfl

theorem isInsert_not_others {e : Event} (h : e.isInsert = true) :
    e.isSendBackend = false ∧ e.isSendFrontend = false ∧ e.isRemove = false := by
  cases e
  · exact ⟨rfl, rfl, rfl⟩
  · simp [Event.isInsert] at h
  · simp [Event.isInsert] at h
  · simp [Event.isInsert] at h
  · simp [Event.isInsert] at h

theorem isRemove_not_others {e : Event} (h : e.isRemove = true) :
    e.isSendBackend = false ∧ e.isSendFrontend = false ∧ e.isInsert = false := by
  cases e
  · simp [Event.isRemove] at h
  · exact ⟨rfl, rfl, rfl⟩
  · simp [Event.isRemove] at h
  · simp [Event.isRemove] at h
  · simp [Event.isRemove] at h

theorem handlerEvents_sendFrontend_shape (r : HandlerResult) :
    ∀ e ∈ handlerEvents r Event.sendFrontend,
      e.isSendBackend = false ∧ e.isInsert = false ∧ e.isRemove = false := by
  intro e he
  rw [handlerEvents, List.mem_append] at he
  rcases he with he | he
  · obtain ⟨msg, _, rfl⟩ := List.mem_map.mp he
    exact ⟨rfl, rfl, rfl⟩
  · rcases hr : r.err with _ | ex <;> rw [hr] at he
    · simp at he
    · rw [List.mem_singleton] at he
      subst he
      exact ⟨rfl, rfl, rfl⟩

theorem handlerEvents_sendBackend_shape (r : HandlerResult) :
    ∀ e ∈ handlerEvents r Event.sendBackend,
      e.isSendFrontend = false ∧ e.isInsert = false ∧ e.isRemove = false := by
  intro e he
  rw [handlerEvents, List.mem_append] at he
  rcases he with he | he
  · obtain ⟨msg, _, rfl⟩ := List.mem_map.mp he
    exact ⟨rfl, rfl, rfl⟩
  · rcases hr : r.err with _ | ex <;> rw [hr] at he
    · simp at he
    · rw [List.mem_singleton] at he
      subst he
      exact ⟨rfl, rfl, rfl⟩

theorem sentFrontend_append (a b : List Event) :
    sentFrontend (a ++ b) = sentFrontend a ++ sentFrontend b := by
  simp [sentFrontend]

theorem sentBackend_append (a b : List Event) :
    sentBackend (a ++ b) = sentBackend a ++ sentBackend b := by
  simp [sentBackend]

theorem sentFrontend_nil_of_no_sends (l : List Event)
    (h : ∀ e ∈ l, e.isSendFrontend = false) : sentFrontend l = [] := by
  induction l with
  | nil => rfl
  | cons e t ih =>
    have he := h e (List.mem_cons_self _ _)
    have ht := ih fun x hx => h x (List.mem_cons_of_mem _ hx)
    cases e with
    | sendFrontend m => simp [Event.isSendFrontend] at he
    | insertPending i m => simpa [sentFrontend] using ht
    | removePending i f => simpa [sentFrontend] using ht
    | sendBackend m => simpa [sentFrontend] using ht
    | handlerFailed r => simpa [sentFrontend] using ht

theorem sentBackend_nil_of_no_sends (l : List Event)
    (h : ∀ e ∈ l, e.isSendBackend = false) : sentBackend l = [] := by
  induction l with
  | nil => rfl
  | cons e t ih =>
    have he := h e (List.mem_cons_self _ _)
    have ht := ih fun x hx => h x (List.mem_cons_of_mem _ hx)
    cases e with
    | sendBackend m => simp [Event.isSendBackend] at he
    | insertPending i m => simpa [sentBackend] using ht
    | removePending i f => simpa [sentBackend] using ht
    | sendFrontend m => simpa [sentBackend] using ht
    | handlerFailed r => simpa [sentBackend] using ht

theorem recordPending_no_sendBackend (pending : PendingTable) (rpc : Json) :
    sentBackend (recordPending pending rpc).2 = [] :=
  sentBackend_nil_of_no_sends _ fun e he =>
    (isInsert_not_others (recordPending_events pending rpc e he)).1

theorem backendGoverning_no_sendFrontend (pending : PendingTable) (rpc : Json) :
    sentFrontend (backendGoverning pending rpc).2.2 = [] :=
  sentFrontend_nil_of_no_sends _ fun e he =>
    (isRemove_not_others (backendGoverning_events pending rpc e he)).2.1

/-! ## Pump-state iteration -/

theorem pumpIteration_iterate (b : Nat) : ∀ (k j : Nat),
    pumpIteration^[k] ⟨b + 1, j⟩ = ⟨b + 1, j + k⟩ := by
  intro k
  induction k with
  | zero => intro j; rfl
  | succ n ih =>
    intro j
    rw [Function.iterate_succ_apply]
    have h1 : pumpIteration ⟨b + 1, j⟩ = ⟨b + 1, j + 1⟩ := rfl
    rw [h1, ih (j + 1), show j + 1 + n = j + (n + 1) from by omega]

/-! ## Malformed `Content-Length` values -/

theorem readHeaderGo_bad_value (f : Nat) (acc : Option Nat) (s line v rest : List Char)
    (hline : readLine s = (line, rest))
    (ht : trimChars line = "Content-Length:".toList ++ v)
    (hv : parseUsize (trimChars v) = none) :
    readHeaderGo (f + 1) acc s = .error .badHeader := by
  have hne : trimChars line ≠ [] := by
    rw [ht]
    intro hcontra
    rw [List.append_eq_nil] at hcontra
    exact absurd hcontra.1 (by decide)
  rw [readHeaderGo, hline]
  simp only [ht] at hne ⊢
  rw [if_neg hne, stripPfx_self_append]
  simp only [hv]

/-! ## Non-object `result` values -/

end Codefuse
namespace Codefuse

/-! ## Concrete messages used by counterexamples and witnesses -/

/-- The S1 backend reply to `initialize` (clangd identity, hover capability). -/
def s1Resp : Json :=
  .obj [("id", .num 1), ("jsonrpc", .str "2.0"),
    ("result", .obj [("capabilities", .obj [("hoverProvider", .bool true)]),
      ("serverInfo", .obj [("name", .str "clangd"), ("version", .str "19")])])]

/-- A client request whose id is the JSON string "5". -/
def c3StrIdReq : Json :=
  .obj [("id", .str "5"), ("jsonrpc", .str "2.0"), ("method", .str "m")]

/-- A backend response whose id is the JSON string "5". -/
def c3StrIdResp : Json :=
  .obj [("id", .str "5"), ("jsonrpc", .str "2.0"), ("result", .null)]

/-- The S6 ill-formed message: neither method nor id. -/
def s6Illformed : Json :=
  .obj [("foo", .str "bar"), ("jsonrpc", .str "2.0")]

/-- The S2 hover request (no hover handler is registered). -/
def s2HoverReq : Json :=
  .obj [("id", .num 2), ("jsonrpc", .str "2.0"),
    ("method", .str "textDocument/hover"),
    ("params", .obj [("position", .obj [("character", .num 5), ("line", .num 10)]),
      ("textDocument", .obj [("uri", .str "file:///t.cpp")])])]

/-- The S2 hover reply. -/
def s2HoverResp : Json :=
  .obj [("id", .num 2), ("jsonrpc", .str "2.0"),
    ("result", .obj [("contents", .str "x")])]

end Codefuse
namespace Codefuse

/-! ## C2 -/

/-- C2: the claim that each reader pump holds its permit until the spawned
handler task completes is false in the code: `let _ = permit;` drops the
permit before `tokio::spawn`, so every iteration returns the permit at once,
the semaphore stays full, and the number of in-flight handler tasks grows
without bound — with a bound of 15 permits, 16 decoded messages with no
completed handler leave 16 tasks in flight. -/
theorem permit_dropped_inflight_exceeds_bound :
    (∀ b k : Nat, pumpIteration^[k] ⟨b + 1, 0⟩ = ⟨b + 1, k⟩)
    ∧ pumpIteration^[16] ⟨15, 0⟩ = ⟨15, 16⟩
    ∧ ¬(pumpIteration^[16] (PumpState.mk 15 0)).inflight ≤ 15 := by
  refine ⟨fun b k => ?_, by decide, by decide⟩
  simpa using pumpIteration_iterate b k 0

/-! ## C3 -/

/-- C3: the claim that a string request id is recorded under its own
type-distinct key is false: the table is keyed by the `u64` that `as_u64`
extracts, which fails on the JSON string "5", so the request records nothing
(its trace has no insert event) and the matching string-id response removes
nothing. -/
theorem string_id_request_not_recorded :
    handle_from_frontend builtinFrontendHandlers [] c3StrIdReq
      = ([], [.sendBackend (format_lsp_message c3StrIdReq)])
    ∧ handle_from_backend [] [] c3StrIdResp
      = ([], [.sendFrontend (format_lsp_message c3StrIdResp)])
    ∧ c3StrIdReq.get "id" = some (.str "5")
    ∧ c3StrIdReq.get "method" = some (.str "m") :=
  ⟨rfl, rfl, rfl, rfl⟩

/-- C3 (amended): the pending table keys ids by `u64` value only: a message
whose id does not read as a `u64` records no pending entry from the frontend
(its trace carries no insert event), and from the backend it removes nothing
and is forwarded verbatim with the table untouched. -/
theorem pending_table_records_only_u64_ids
    (regF regB : Registry) (pending : PendingTable) (rpc idVal : Json)
    (hid : rpc.get "id" = some idVal) (hu : idVal.asU64 = none) :
    (handle_from_frontend regF pending rpc).1 = pending
    ∧ (∀ e ∈ (handle_from_frontend regF pending rpc).2, e.isInsert = false)
    ∧ handle_from_backend regB pending rpc
        = (pending, [.sendFrontend (format_lsp_message rpc)]) := by
  have hrec := recordPending_non_u64 pending rpc idVal hid hu
  have hbg := backendGoverning_non_u64 pending rpc idVal hid hu
  refine ⟨?_, ?_, ?_⟩
  · rw [frontend_table, hrec]
  · intro e he
    rcases hL : regLookup regF (((rpc.get "method").bind Json.asStr).getD "") with _ | h
    · rw [frontend_trace_forward regF pending rpc hL, hrec] at he
      simp at he
      subst he
      rfl
    · rw [frontend_trace_handler regF pending rpc h hL, hrec] at he
      simp at he
      exact (handlerEvents_sendBackend_shape (h rpc) e he).2.1
  · have hs : (backendGoverning pending rpc).1 = none := by rw [hbg]
    have h1 := backend_table regB pending rpc
    have h2 := backend_trace_none regB pending rpc hs
    rw [hbg] at h1 h2
    simp at h1 h2
    exact Prod.ext h1 h2

/-- Witness for C3 (amended) at the string-id request. -/
theorem pending_table_records_only_u64_ids_witness :
    (handle_from_frontend builtinFrontendHandlers [] c3StrIdReq).1 = []
    ∧ (∀ e ∈ (handle_from_frontend builtinFrontendHandlers [] c3StrIdReq).2,
        e.isInsert = false)
    ∧ handle_from_backend [] [] c3StrIdReq
        = ([], [.sendFrontend (format_lsp_message c3StrIdReq)]) :=
  pending_table_records_only_u64_ids builtinFrontendHandlers [] [] c3StrIdReq
    (.str "5") rfl rfl

end Codefuse
namespace Codefuse

/-! ## C4 -/

/-- C4: the claim that a message with neither `method` nor `id` is logged and
dropped is false: the S6 message is forwarded verbatim — from the backend it
is enqueued for the client, from the frontend for the server. -/
theorem illformed_message_forwarded :
    handle_from_backend [] [] s6Illformed
      = ([], [.sendFrontend (format_lsp_message s6Illformed)])
    ∧ handle_from_frontend [] [] s6Illformed
      = ([], [.sendBackend (format_lsp_message s6Illformed)])
    ∧ s6Illformed.get "id" = none
    ∧ s6Illformed.get "method" = none :=
  ⟨rfl, rfl, rfl, rfl⟩

/-- C4 (amended): a decoded message with neither `method` nor `id` is
forwarded verbatim in both directions: the pending table is untouched and the
call's one event is the verbatim send to the opposite peer — the pump neither
drops the message nor fails. -/
theorem illformed_forwarded_not_dropped
    (regB regF : Registry) (pending : PendingTable) (rpc : Json)
    (hm : rpc.get "method" = none) (hid : rpc.get "id" = none)
    (hreg : regLookup regF "" = none) :
    handle_from_backend regB pending rpc
      = (pending, [.sendFrontend (format_lsp_message rpc)])
    ∧ handle_from_frontend regF pending rpc
      = (pending, [.sendBackend (format_lsp_message rpc)]) := by
  have hbg := backendGoverning_no_id pending rpc hid
  rw [hm] at hbg
  simp at hbg
  have hs : (backendGoverning pending rpc).1 = none := by rw [hbg]
  have h1 := backend_table regB pending rpc
  have h2 := backend_trace_none regB pending rpc hs
  rw [hbg] at h1 h2
  simp at h1 h2
  have hfL : regLookup regF (((rpc.get "method").bind Json.asStr).getD "") = none := by
    rw [hm]
    simpa using hreg
  have hf1 := frontend_table regF pending rpc
  have hf2 := frontend_trace_forward regF pending rpc hfL
  rw [recordPending_no_id pending rpc hid] at hf1 hf2
  simp at hf1 hf2
  exact ⟨Prod.ext h1 h2, Prod.ext hf1 hf2⟩

/-- Witness for C4 (amended) at the S6 message. -/
theorem illformed_forwarded_not_dropped_witness :
    handle_from_backend [] [] s6Illformed
      = ([], [Event.sendFrontend (format_lsp_message s6Illformed)])
    ∧ handle_from_frontend [] [] s6Illformed
      = ([], [Event.sendBackend (format_lsp_message s6Illformed)]) :=
  illformed_forwarded_not_dropped [] [] [] s6Illformed rfl rfl rfl

/-! ## C5 -/

/-- C5: the claim that a header section ending with no `Content-Length` fails
the read with BadHeader is false: the reader takes the `continue` branch,
silently skips the block, and goes on to read the next frame. -/
theorem missing_content_length_skipped :
    readFrame ("X-Junk: 1\r\n\r\nContent-Length: 4\r\n\r\nnull".toList)
      = .ok (.null, []) := rfl

/-- C5 (amended): a `Content-Length` header whose value does not parse as a
non-negative 64-bit integer fails the frame read with BadHeader, terminating
the pump; a header block with no `Content-Length` at all is instead silently
skipped. -/
theorem bad_content_length_value_fails (s line v rest : List Char)
    (hline : readLine s = (line, rest))
    (ht : trimChars line = "Content-Length:".toList ++ v)
    (hv : parseUsize (trimChars v) = none) :
    readFrame s = .error .badHeader := by
  rw [readFrame, readFrameGo, readHeaderGo_bad_value s.length none s line v rest hline ht hv]

/-- Witness for C5 (amended): a non-numeric `Content-Length` value fails. -/
theorem bad_content_length_value_fails_witness :
    readFrame "Content-Length: abc\r\n\r\nnull".toList = .error .badHeader :=
  bad_content_length_value_fails "Content-Length: abc\r\n\r\nnull".toList
    "Content-Length: abc\r\n".toList " abc".toList "\r\nnull".toList rfl rfl rfl

end Codefuse
namespace Codefuse

/-! ## C6 -/

/-- C6: for a backend response whose `u64` id has a pending entry, the entry
is removed first in the same dispatcher call: the trace opens with the
removal event, every send of the call follows it, and the table the call
yields no longer contains the key. -/
theorem response_removes_pending_before_forward
    (reg : Registry) (pending : PendingTable) (rpc idVal : Json) (id : Nat)
    (hn : (pending.map Prod.fst).Nodup)
    (hid : rpc.get "id" = some idVal) (hu : idVal.asU64 = some id)
    (hkey : tableHasKey id pending = true) :
    ∃ m evs, handle_from_backend reg pending rpc
        = ((tableRemove id pending).2, .removePending id (some m) :: evs)
      ∧ tableHasKey id (tableRemove id pending).2 = false := by
  obtain ⟨m, hm⟩ := tableRemove_found id pending hkey
  have hnk := tableRemove_not_hasKey id pending hn
  have hbg := backendGoverning_u64 pending rpc idVal id hid hu
  rw [hm] at hbg
  have hs : (backendGoverning pending rpc).1 = some m := by rw [hbg]
  have h1 := backend_table reg pending rpc
  rw [hbg] at h1
  simp at h1
  rcases hL : regLookup reg m with _ | h
  · have h2 := backend_trace_unreg reg pending rpc m hs hL
    rw [hbg] at h2
    simp at h2
    exact ⟨m, [.sendFrontend (format_lsp_message rpc)], Prod.ext h1 h2, hnk⟩
  · have h2 := backend_trace_handler reg pending rpc m h hs hL
    rw [hbg] at h2
    simp at h2
    exact ⟨m, handlerEvents (h rpc) .sendFrontend, Prod.ext h1 h2, hnk⟩

/-- Witness for C6 at the S2 hover response. -/
theorem response_removes_pending_before_forward_witness :
    ∃ m evs, handle_from_backend [] [(2, "textDocument/hover")] s2HoverResp
        = ((tableRemove 2 [(2, "textDocument/hover")]).2,
           Event.removePending 2 (some m) :: evs)
      ∧ tableHasKey 2 (tableRemove 2 [(2, "textDocument/hover")]).2 = false :=
  response_removes_pending_before_forward [] [(2, "textDocument/hover")] s2HoverResp
    (.num 2) 2 (by decide) rfl rfl rfl

/-! ## C7 -/

end Codefuse
namespace Codefuse

/-! ## C8 -/

/-- C8: verbatim-forward fidelity: a message whose governing method has no
registered handler in its direction is forwarded as the one frame enqueued
for the opposite peer, the re-framed received body; that body's serialization
parses back to the received value's normal form, so key sets and values agree
with the received body, whitespace and member order aside. -/
theorem unregistered_method_forwarded_verbatim
    (regB regF : Registry) (pending : PendingTable) (rpc : Json)
    (hb : ∀ m, governingMethod pending rpc = some m → regLookup regB m = none)
    (hf : regLookup regF (((rpc.get "method").bind Json.asStr).getD "") = none) :
    sentFrontend (handle_from_backend regB pending rpc).2 = [format_lsp_message rpc]
    ∧ sentBackend (handle_from_frontend regF pending rpc).2 = [format_lsp_message rpc]
    ∧ parseJson (Json.ser rpc) = some rpc.normalize
    ∧ Json.equiv (Json.normalize rpc) rpc := by
  refine ⟨?_, ?_, parseJson_ser rpc, normalize_idem rpc⟩
  · rcases hs : (backendGoverning pending rpc).1 with _ | m
    · rw [backend_trace_none regB pending rpc hs, sentFrontend_append,
        backendGoverning_no_sendFrontend]
      rfl
    · have hreg := hb m (by rw [governingMethod_eq_step, hs])
      rw [backend_trace_unreg regB pending rpc m hs hreg, sentFrontend_append,
        backendGoverning_no_sendFrontend]
      rfl
  · rw [frontend_trace_forward regF pending rpc hf, sentBackend_append,
      recordPending_no_sendBackend]
    rfl

/-- Witness for C8 at the S2 hover response (`textDocument/hover` has no
handler in either direction). -/
theorem unregistered_method_forwarded_verbatim_witness :
    sentFrontend (handle_from_backend [] [(2, "textDocument/hover")] s2HoverResp).2
      = [format_lsp_message s2HoverResp]
    ∧ sentBackend (handle_from_frontend [] [(2, "textDocument/hover")] s2HoverResp).2
      = [format_lsp_message s2HoverResp]
    ∧ parseJson (Json.ser s2HoverResp) = some s2HoverResp.normalize
    ∧ Json.equiv (Json.normalize s2HoverResp) s2HoverResp :=
  unregistered_method_forwarded_verbatim [] [] [(2, "textDocument/hover")] s2HoverResp
    (fun _ _ => rfl) rfl

/-! ## C9 -/

/-- C9: framing round-trip: reading the frame `format_lsp_message` emitted
yields the value's normal form, JSON-equal to the value, consuming the whole
stream; and the emitted header parses back exactly the body's UTF-8 byte
length as its `Content-Length`. The bound is the 64-bit `usize` range every
real Rust string length satisfies. -/
theorem write_frame_read_frame_round_trip (v : Json)
    (hL : byteLen (Json.ser v) < 2 ^ 64) :
    readFrame (format_lsp_message v) = .ok (v.normalize, [])
    ∧ Json.equiv (Json.normalize v) v
    ∧ readHeaderGo ((format_lsp_message v).length + 1) none (format_lsp_message v)
        = .ok (some (byteLen (Json.ser v)), Json.ser v) :=
  ⟨readFrame_format v hL, normalize_idem v, readHeader_format v hL⟩

/-- Witness for C9 at the S1 initialize reply. -/
theorem write_frame_read_frame_round_trip_witness :
    readFrame (format_lsp_message s1Resp) = .ok (s1Resp.normalize, [])
    ∧ Json.equiv (Json.normalize s1Resp) s1Resp
    ∧ readHeaderGo ((format_lsp_message s1Resp).length + 1) none (format_lsp_message s1Resp)
        = .ok (some (byteLen (Json.ser s1Resp)), Json.ser s1Resp) :=
  write_frame_read_frame_round_trip s1Resp (by decide)

/-! ## C10 -/

/-- C10: direction separation with the built-in handler set: a from-frontend
call never enqueues on the frontend writer queue and never removes a pending
entry, while a from-backend call never enqueues on the backend writer queue
and never inserts one. -/
theorem direction_separation (pending : PendingTable) (rpc : Json) :
    (∀ e ∈ (handle_from_frontend builtinFrontendHandlers pending rpc).2,
        e.isSendFrontend = false ∧ e.isRemove = false)
    ∧ (∀ e ∈ (handle_from_backend builtinBackendHandlers pending rpc).2,
        e.isSendBackend = false ∧ e.isInsert = false) := by
  constructor
  · intro e he
    rcases hL : regLookup builtinFrontendHandlers
        (((rpc.get "method").bind Json.asStr).getD "") with _ | h
    · rw [frontend_trace_forward _ pending rpc hL, List.mem_append] at he
      rcases he with he | he
      · have hi := isInsert_not_others (recordPending_events pending rpc e he)
        exact ⟨hi.2.1, hi.2.2⟩
      · rw [List.mem_singleton] at he
        subst he
        exact ⟨rfl, rfl⟩
    · rw [frontend_trace_handler _ pending rpc h hL, List.mem_append] at he
      rcases he with he | he
      · have hi := isInsert_not_others (recordPending_events pending rpc e he)
        exact ⟨hi.2.1, hi.2.2⟩
      · have hsh := handlerEvents_sendBackend_shape (h rpc) e he
        exact ⟨hsh.1, hsh.2.2⟩
  · intro e he
    rcases hs : (backendGoverning pending rpc).1 with _ | m
    · rw [backend_trace_none _ pending rpc hs, List.mem_append] at he
      rcases he with he | he
      · have hr := isRemove_not_others (backendGoverning_events pending rpc e he)
        exact ⟨hr.1, hr.2.2⟩
      · rw [List.mem_singleton] at he
        subst he
        exact ⟨rfl, rfl⟩
    · rcases hL : regLookup builtinBackendHandlers m with _ | h
      · rw [backend_trace_unreg _ pending rpc m hs hL, List.mem_append] at he
        rcases he with he | he
        · have hr := isRemove_not_others (backendGoverning_events pending rpc e he)
          exact ⟨hr.1, hr.2.2⟩
        · rw [List.mem_singleton] at he
          subst he
          exact ⟨rfl, rfl⟩
      · rw [backend_trace_handler _ pending rpc m h hs hL, List.mem_append] at he
        rcases he with he | he
        · have hr := isRemove_not_others (backendGoverning_events pending rpc e he)
          exact ⟨hr.1, hr.2.2⟩
        · have hsh := handlerEvents_sendFrontend_shape (h rpc) e he
          exact ⟨hsh.1, hsh.2.1⟩

end Codefuse
